import Mathlib

/-!
The listing, filtering and dispatch pipeline of `Run` in s3-reinvoke-lambda.

A shallow embedding of `app.go`, with the client interface of `aws.go` and the test client of
`app_test.go`.

* Go strings and byte slices are modelled by `String`; pointers that may be nil by `Option`.
* The `uint64` counters of `Summary` are natural numbers reduced modulo `2 ^ 64`.
* What `Run` receives from outside the repository is a parameter: the JSON encoder, the wall
  clock, the state of the cancellation signal at each poll, and the two capabilities of the
  client, each a function of its request.
* `Run` is embedded twice. The function `Run` follows the coordinator statement by statement and
  executes every invocation unit at its launch; it carries the listing, the filter rules, the
  cancellation poll and the counters. The transition system `Dispatch` keeps the gate, the wait
  group and the counters only, and lets the coordinator and the units take their steps in any
  order; the last section shows that the summary of `Run` is the outcome of `Dispatch` under the
  schedule in which the units run one after the other.
-/

namespace S3Reinvoke

/-! ## Data model -/

/-- Instant of a `time.Time` value: seconds, and nanoseconds within the second. -/
structure Time where
  sec : Int
  nsec : Nat
deriving DecidableEq, Repr

/-- The method `Time.Before` of the standard library for values without a monotonic clock reading
(values parsed from text or received from the listing API carry none). -/
def Time.Before (t u : Time) : Bool :=
  decide (t.sec < u.sec) || (decide (t.sec = u.sec) && decide (t.nsec < u.nsec))

/-- The type `Setting` (app.go lines 20-29). -/
structure Setting where
  Bucket : String
  Prefix : String
  StartAfter : String
  ModifiedBefore : Option Time
  LowerExtensions : List String
  Parallelism : Int
  FunctionName : String
  DryRun : Bool
deriving DecidableEq, Repr

/-- The type `Summary` (app.go lines 31-37); every field is a `uint64`. -/
structure Summary where
  Total : Nat
  Done : Nat
  Skipped : Nat
  Errored : Nat
  DurationMs : Nat
deriving DecidableEq, Repr

/-- The fields of `types.Object` that the code reads; each is a pointer in the SDK. -/
structure Object where
  Key : Option String
  Size : Option Int
  ETag : Option String
  LastModified : Option Time
deriving DecidableEq, Repr

/-- The field of `aws.Config` that the code reads. -/
structure Config where
  Region : String
deriving DecidableEq, Repr

/-- The type `s3.ListObjectsV2Input` as filled in by `Run` (app.go lines 99-105). -/
structure ListObjectsV2Input where
  Bucket : Option String
  Prefix : Option String
  StartAfter : Option String
  ContinuationToken : Option String
  MaxKeys : Option Int
deriving DecidableEq, Repr

/-- The fields of `s3.ListObjectsV2Output` that `Run` reads. -/
structure ListObjectsV2Output where
  Contents : List Object
  IsTruncated : Option Bool
  NextContinuationToken : Option String
deriving DecidableEq, Repr

/-- The type `lambda.InvokeInput` as filled in by `Run` (app.go lines 157-160). -/
structure InvokeInput where
  FunctionName : Option String
  Payload : String
deriving DecidableEq, Repr

/-- The interface `IAwsClient` (aws.go lines 13-17). The result of `Invoke` is never read, only
its error. -/
structure IAwsClient where
  GetConfig : Option Config
  ListObjectsV2 : ListObjectsV2Input → Except String ListObjectsV2Output
  Invoke : InvokeInput → Except String Unit

/-! ## The S3 event of `aws-lambda-go/events`: the fields `buildS3EventPayload` sets.
Fields of the library types that the code leaves at their zero value are not represented. -/

structure S3Object where
  Key : String
  Size : Int
  ETag : String
deriving DecidableEq, Repr

structure S3Bucket where
  Name : String
  Arn : String
deriving DecidableEq, Repr

structure S3Entity where
  SchemaVersion : String
  ConfigurationID : String
  Bucket : S3Bucket
  Object : S3Object
deriving DecidableEq, Repr

structure S3RequestParameters where
  SourceIPAddress : String
deriving DecidableEq, Repr

structure S3EventRecord where
  EventVersion : String
  EventSource : String
  AWSRegion : String
  EventTime : Time
  EventName : String
  RequestParameters : S3RequestParameters
  ResponseElements : List (String × String)
  S3 : S3Entity
deriving DecidableEq, Repr

structure S3Event where
  Records : List S3EventRecord
deriving DecidableEq, Repr

/-! ## buildS3EventPayload (app.go lines 39-86) -/

/-- The event value that `buildS3EventPayload` hands to `json.Marshal`; `now` is the reading
of `time.Now()`. -/
def buildS3Event (now : Time) (cfg : Option Config) (bucket : String) (obj : Object) : S3Event :=
  let region :=
    match cfg with
    | some c => c.Region
    | none => "us-east-1"
  let objectRecord : S3Object :=
    { Key := match obj.Key with
        | some k => k
        | none => ""
      Size := match obj.Size with
        | some n => n
        | none => 0
      ETag := match obj.ETag with
        | some e => e
        | none => "" }
  { Records :=
      [ { EventVersion := "2.1"
          EventSource := "aws:s3"
          AWSRegion := region
          EventTime := now
          EventName := "ObjectCreated:Put"
          RequestParameters := { SourceIPAddress := "127.0.0.1" }
          ResponseElements :=
            [("x-amz-request-id", "s3-reinvoke-lambda"), ("x-amz-id-2", "s3-reinvoke-lambda")]
          S3 :=
            { SchemaVersion := "1.0"
              ConfigurationID := "s3-reinvoke-lambda"
              Bucket := { Name := bucket, Arn := "arn:aws:s3:::" ++ bucket }
              Object := objectRecord } } ] }

/-- The function `buildS3EventPayload`: the event, serialised by the JSON encoder `marshal`. -/
def buildS3EventPayload (marshal : S3Event → Except String String) (now : Time)
    (cfg : Option Config) (bucket : String) (obj : Object) : Except String String :=
  marshal (buildS3Event now cfg bucket obj)

/-! ## The two filter rules of `Run` (app.go lines 123-138) -/

/-- Backward scan of `path.Ext`: `rev` is what is left of the path, last byte first, and
`acc` is the part of the path after it. The scan stops at the first slash. -/
def extScan : List Char → List Char → List Char
  | [], _ => []
  | c :: rev, acc =>
    if c = '/' then []
    else if c = '.' then c :: acc
    else extScan rev (c :: acc)

/-- The function `path.Ext`: the suffix beginning at the final dot of the final slash-separated
element of the path, empty if there is no dot. -/
def Ext (path : String) : String :=
  String.mk (extScan path.toList.reverse [])

/-- Extension rule (lines 124-130): `true` when the object is skipped by it. -/
def extensionRejects (setting : Setting) (key : String) : Bool :=
  let hasExts := decide (setting.LowerExtensions.length > 0)
  if hasExts then
    let lowerExt := Ext key
    !(setting.LowerExtensions.contains lowerExt)
  else
    false

/-- Modified-before rule (lines 133-138): `true` when the object is skipped by it. -/
def modifiedRejects (setting : Setting) (obj : Object) : Bool :=
  match setting.ModifiedBefore, obj.LastModified with
  | some cutoff, some modified => cutoff.Before modified
  | _, _ => false

/-! ## Run (app.go lines 88-186)

The coordinator of `Run` is sequential. Each invocation unit (the `go func` of lines 143-172)
is executed here to completion at the point where it is launched, which is one of the schedules
the program admits for every capacity of at least 1. What the function says of the counters
that the units write (Done, Errored, DurationMs) therefore holds for the runs in which no two
units overlap; the interleavings of the units are the subject of the dispatcher model further
down. -/

/-- What reaches `Run` from outside the repository. The index `k` is the number of objects
the coordinator has taken from the listing before the one at hand. -/
structure Runtime where
  /-- The encoder `json.Marshal` on S3 events. -/
  marshal : S3Event → Except String String
  /-- The reading of `time.Now()` when the payload of object `k` is built. -/
  now : Nat → Time
  /-- The value of `uint64(time.Since(started).Milliseconds())` for the invocation of object `k`. -/
  elapsedMs : Nat → Nat

/-- Observable actions of a run, in the order in which they happen. -/
inductive Event where
  /-- A call of `client.ListObjectsV2`. -/
  | list (input : ListObjectsV2Input)
  /-- The `select` on `ctx.Done()` of line 117, with what it found. -/
  | poll (fired : Bool)
  /-- The `go` statement of line 143, with the key handed to the unit. -/
  | launch (key : String)
  /-- A call of `client.Invoke` made by the unit of `key`, with whether it returned no error. -/
  | invoke (key : String) (input : InvokeInput) (ok : Bool)
deriving DecidableEq, Repr

/-- How `Run` ends. -/
inductive Outcome where
  /-- The statement `return &summary, nil` is reached. -/
  | returned (summary : Summary)
  /-- The statement `return nil, err` of line 110 is reached. -/
  | failed (err : String)
  /-- A nil pointer is dereferenced, or the channel is made with a negative capacity. -/
  | panicked
  /-- The coordinator waits for ever at the send `sem <- struct{}{}`. -/
  | blocked
  /-- The bound on the number of listing calls of the model is used up. -/
  | outOfFuel
deriving DecidableEq, Repr

/-- How the body of the loop over `listOutput.Contents` is left. -/
inductive Flow where
  /-- Go on with the next object (end of the body, or `continue`). -/
  | next
  /-- The statement `break All`. -/
  | breakAll
  | panicked
  | blocked
deriving DecidableEq, Repr

/-- Addition of `uint64`. -/
def u64add (a b : Nat) : Nat := (a + b) % 2 ^ 64

/-- The variables of `Run` that change, with the record of its actions. -/
structure RunState where
  summary : Summary
  /-- Number of elements in the buffer of the channel `sem`. -/
  sem : Nat
  /-- Number of objects taken from the listing so far. -/
  seen : Nat
  events : List Event
deriving DecidableEq, Repr

def RunState.log (st : RunState) (e : Event) : RunState :=
  { st with events := st.events ++ [e] }

/-- The statement `summary.Total++`. -/
def RunState.incTotal (st : RunState) : RunState :=
  { st with summary := { st.summary with Total := u64add st.summary.Total 1 } }

/-- The statement `summary.Skipped++`. -/
def RunState.incSkipped (st : RunState) : RunState :=
  { st with summary := { st.summary with Skipped := u64add st.summary.Skipped 1 } }

/-- The statement `summary.Done++`. -/
def RunState.incDone (st : RunState) : RunState :=
  { st with summary := { st.summary with Done := u64add st.summary.Done 1 } }

/-- The statement `summary.Errored++`. -/
def RunState.incErrored (st : RunState) : RunState :=
  { st with summary := { st.summary with Errored := u64add st.summary.Errored 1 } }

/-- The statement `summary.DurationMs += ms`. -/
def RunState.addDuration (st : RunState) (ms : Nat) : RunState :=
  { st with summary := { st.summary with DurationMs := u64add st.summary.DurationMs ms } }

/-- The request of lines 157-160. -/
def invokeInputOf (setting : Setting) (payload : String) : InvokeInput :=
  { FunctionName := some setting.FunctionName, Payload := payload }

/-- One invocation unit, lines 143-172, for object number `k`: the body, then the deferred
receive from `sem` (the deferred `wg.Done()` has no effect on the state kept here). -/
def runUnit (rt : Runtime) (setting : Setting) (client : IAwsClient) (cfg : Option Config)
    (k : Nat) (key : String) (objCopy : Object) (st : RunState) : RunState :=
  let st :=
    match buildS3EventPayload rt.marshal (rt.now k) cfg setting.Bucket objCopy with
    | .error _ => st
    | .ok payload =>
      if setting.DryRun then
        st.incDone
      else
        let invokeInput := invokeInputOf setting payload
        match client.Invoke invokeInput with
        | .error _ => (st.log (.invoke key invokeInput false)).incErrored
        | .ok _ => ((st.log (.invoke key invokeInput true)).incDone).addDuration (rt.elapsedMs k)
  { st with sem := st.sem - 1 }

/-- The body of the loop over `listOutput.Contents`, lines 114-173, for one object. -/
def processObject (rt : Runtime) (ctx : Nat → Bool) (setting : Setting) (client : IAwsClient)
    (cfg : Option Config) (st : RunState) (obj : Object) : Flow × RunState :=
  let k := st.seen
  let st := { st.incTotal with seen := k + 1 }
  let fired := ctx k
  let st := st.log (.poll fired)
  if fired then
    (.breakAll, st)
  else
    match obj.Key with
    | none => (.panicked, st)
    | some key =>
      if extensionRejects setting key then
        (.next, st.incSkipped)
      else if modifiedRejects setting obj then
        (.next, st.incSkipped)
      else if st.sem < setting.Parallelism.toNat then
        let st := { st with sem := st.sem + 1 }
        let st := st.log (.launch key)
        (.next, runUnit rt setting client cfg k key obj st)
      else
        (.blocked, st)

/-- The loop over `listOutput.Contents`, lines 113-174. -/
def processContents (rt : Runtime) (ctx : Nat → Bool) (setting : Setting) (client : IAwsClient)
    (cfg : Option Config) : RunState → List Object → Flow × RunState
  | st, [] => (.next, st)
  | st, obj :: rest =>
    match processObject rt ctx setting client cfg st obj with
    | (.next, st) => processContents rt ctx setting client cfg st rest
    | stop => stop

/-- The request of lines 99-105. -/
def listInputOf (setting : Setting) (continuationToken : Option String) : ListObjectsV2Input :=
  { Bucket := some setting.Bucket
    Prefix := some setting.Prefix
    StartAfter := some setting.StartAfter
    ContinuationToken := continuationToken
    MaxKeys := some 1000 }

/-- The loop `All`, lines 97-181, with the `wg.Wait()` and `return` that follow it; `fuel`
bounds the number of listing calls. -/
def runLoop (rt : Runtime) (ctx : Nat → Bool) (setting : Setting) (client : IAwsClient)
    (cfg : Option Config) : Nat → Option String → RunState → Outcome × RunState
  | 0, _, st => (.outOfFuel, st)
  | fuel + 1, continuationToken, st =>
    let listInput := listInputOf setting continuationToken
    let st := st.log (.list listInput)
    match client.ListObjectsV2 listInput with
    | .error err => (.failed ("failed to list objects: " ++ err), st)
    | .ok listOutput =>
      match processContents rt ctx setting client cfg st listOutput.Contents with
      | (.breakAll, st) => (.returned st.summary, st)
      | (.panicked, st) => (.panicked, st)
      | (.blocked, st) => (.blocked, st)
      | (.next, st) =>
        match listOutput.IsTruncated with
        | none => (.panicked, st)
        | some true => runLoop rt ctx setting client cfg fuel listOutput.NextContinuationToken st
        | some false => (.returned st.summary, st)

/-- The state at line 96. -/
def RunState.init : RunState :=
  { summary := { Total := 0, Done := 0, Skipped := 0, Errored := 0, DurationMs := 0 }
    sem := 0
    seen := 0
    events := [] }

/-- The function `Run`: how it ends, and the record of its actions. `ctx k` tells whether the
poll of the cancellation signal for object number `k` finds it fired. -/
def Run (rt : Runtime) (fuel : Nat) (ctx : Nat → Bool) (setting : Setting)
    (client : IAwsClient) : Outcome × List Event :=
  let cfg := client.GetConfig
  if setting.Parallelism < 0 then
    (.panicked, [])
  else
    let r := runLoop rt ctx setting client cfg fuel none RunState.init
    (r.1, r.2.events)

/-! ## The dispatcher under interleaving (app.go lines 92, 141-172 and 183)

The coordinator and the launched units take turns in any order. The shared variables are the
channel `sem`, the wait group `wg` and the counters of `summary` that the units write. The
units write the counters with plain `++` and `+=` statements, with no lock and no atomic
operation around them, so each such statement is a read of the variable followed, in a later
step of the unit, by a write. -/

/-- What a unit does after it is launched; fixed by its object and by the outside world. -/
inductive UnitKind where
  /-- The call of `buildS3EventPayload` returns an error (line 148). -/
  | buildFails
  /-- The flag `setting.DryRun` is set (line 153). -/
  | dryRun
  /-- The call of `client.Invoke` returns an error (line 163). -/
  | invokeFails
  /-- The call of `client.Invoke` returns no error, after `ms` milliseconds (line 166). -/
  | invokeOk (ms : Nat)
deriving DecidableEq, Repr

/-- Where a launched unit stands in lines 143-172. -/
inductive UnitPc where
  /-- Launched by the `go` statement, nothing executed yet. -/
  | start (kind : UnitKind)
  /-- Inside `client.Invoke`; `result` is the elapsed time it will return with, `none` for an
  error. -/
  | invoking (result : Option Nat)
  /-- In `summary.Done++`, having read the value `v`; `ms` is set on the invocation path. -/
  | doneRead (v : Nat) (ms : Option Nat)
  /-- Before `summary.DurationMs += ms`. -/
  | doneWritten (ms : Nat)
  /-- In `summary.DurationMs += ms`, having read the value `v`. -/
  | durationRead (v : Nat) (ms : Nat)
  /-- In `summary.Errored++`, having read the value `v`. -/
  | erroredRead (v : Nat)
  /-- Body left; the deferred `<-sem` comes next. -/
  | exiting
  /-- Slot given back; the deferred `wg.Done()` comes next. -/
  | released
  | finished
deriving DecidableEq, Repr

/-- Where the coordinator stands in lines 141-143 and 183. -/
inductive CoordPc where
  /-- Before `wg.Add(1)` for the next unit, or before `wg.Wait()` when none is left. -/
  | idle
  /-- At the send `sem <- struct{}{}`. -/
  | sending (kind : UnitKind)
  /-- At the `go` statement. -/
  | going (kind : UnitKind)
  /-- Past `wg.Wait()`. -/
  | returned
deriving DecidableEq, Repr

/-- State of the dispatcher. -/
structure Dispatch where
  /-- Capacity of the channel `sem`, that is `setting.Parallelism`. -/
  cap : Nat
  /-- The units the coordinator has still to launch, in listing order. -/
  pending : List UnitKind
  coord : CoordPc
  /-- Number of elements in the buffer of `sem`. -/
  sem : Nat
  /-- Counter of the wait group. -/
  wg : Nat
  /-- The launched units, in launch order. -/
  units : List UnitPc
  Done : Nat
  Errored : Nat
  DurationMs : Nat
deriving DecidableEq, Repr

/-- The dispatcher before the first unit. -/
def Dispatch.init (cap : Nat) (pending : List UnitKind) : Dispatch :=
  { cap := cap, pending := pending, coord := .idle, sem := 0, wg := 0, units := [],
    Done := 0, Errored := 0, DurationMs := 0 }

/-- One step of the coordinator; `none` when it cannot move. -/
def coordStep (s : Dispatch) : Option Dispatch :=
  match s.coord with
  | .idle =>
    match s.pending with
    | kind :: rest => some { s with pending := rest, coord := .sending kind, wg := s.wg + 1 }
    | [] => if s.wg = 0 then some { s with coord := .returned } else none
  | .sending kind =>
    if s.sem < s.cap then some { s with sem := s.sem + 1, coord := .going kind } else none
  | .going kind => some { s with units := s.units ++ [.start kind], coord := .idle }
  | .returned => none

/-- One step of the unit that stands at `pc`: its new position and the shared variables. -/
def unitAct (s : Dispatch) : UnitPc → Option (UnitPc × Dispatch)
  | .start .buildFails => some (.exiting, s)
  | .start .dryRun => some (.doneRead s.Done none, s)
  | .start .invokeFails => some (.invoking none, s)
  | .start (.invokeOk ms) => some (.invoking (some ms), s)
  | .invoking none => some (.erroredRead s.Errored, s)
  | .invoking (some ms) => some (.doneRead s.Done (some ms), s)
  | .doneRead v none => some (.exiting, { s with Done := u64add v 1 })
  | .doneRead v (some ms) => some (.doneWritten ms, { s with Done := u64add v 1 })
  | .doneWritten ms => some (.durationRead s.DurationMs ms, s)
  | .durationRead v ms => some (.exiting, { s with DurationMs := u64add v ms })
  | .erroredRead v => some (.exiting, { s with Errored := u64add v 1 })
  | .exiting => if 0 < s.sem then some (.released, { s with sem := s.sem - 1 }) else none
  | .released => some (.finished, { s with wg := s.wg - 1 })
  | .finished => none

/-- One step of unit number `i`. -/
def unitStep (s : Dispatch) (i : Nat) : Option Dispatch :=
  match s.units[i]? with
  | none => none
  | some pc =>
    match unitAct s pc with
    | none => none
    | some (pc', s') => some { s' with units := s'.units.set i pc' }

/-- One step of the scheduler's choice: `0` is the coordinator, `i + 1` is unit number `i`. -/
def Dispatch.step (s : Dispatch) : Nat → Option Dispatch
  | 0 => coordStep s
  | i + 1 => unitStep s i

/-- The state after a schedule, `none` if the schedule picks somebody who cannot move. -/
def Dispatch.exec (s : Dispatch) : List Nat → Option Dispatch
  | [] => some s
  | c :: rest =>
    match s.step c with
    | none => none
    | some s' => s'.exec rest

/-- A unit that was launched and has not yet given its slot back. -/
def UnitPc.holdsSlot : UnitPc → Bool
  | .released => false
  | .finished => false
  | _ => true

/-- A unit inside its call of `client.Invoke`. -/
def UnitPc.isInvoking : UnitPc → Bool
  | .invoking _ => true
  | _ => false

/-- Number of units launched that have not yet given their slot back. -/
def Dispatch.inFlight (s : Dispatch) : Nat := s.units.countP UnitPc.holdsSlot

/-- Number of calls of `client.Invoke` in progress. -/
def Dispatch.invoking (s : Dispatch) : Nat := s.units.countP UnitPc.isInvoking

/-- Every launched unit has run to its end and `Run` is past `wg.Wait()`. -/
def Dispatch.completed (s : Dispatch) : Bool :=
  decide (s.coord = .returned) && s.units.all (fun pc => decide (pc = .finished))

/-! ## Notions used to state the properties -/

/-- The request, if the action is a listing call. -/
def Event.listInput : Event → Option ListObjectsV2Input
  | .list input => some input
  | _ => none

/-- The key, if the action is a call of `client.Invoke`. -/
def Event.invokedKey : Event → Option String
  | .invoke key _ _ => some key
  | _ => none

/-- The key, if the action is a call of `client.Invoke` that returned no error. -/
def Event.succeededKey : Event → Option String
  | .invoke key _ true => some key
  | _ => none

/-- The key, if the action is the launch of a unit. -/
def Event.launchedKey : Event → Option String
  | .launch key => some key
  | _ => none

/-- The request of every listing call of a run, in order. -/
def listCalls (events : List Event) : List ListObjectsV2Input :=
  events.filterMap Event.listInput

/-- The key of every call of `client.Invoke` of a run, in order. -/
def invokedKeys (events : List Event) : List String :=
  events.filterMap Event.invokedKey

/-- The key of every call of `client.Invoke` of a run that returned no error, in order. -/
def succeededKeys (events : List Event) : List String :=
  events.filterMap Event.succeededKey

/-- The key of every unit launched in a run, in order. -/
def launchedKeys (events : List Event) : List String :=
  events.filterMap Event.launchedKey

/-- The objects of all pages, in listing order. -/
def allObjects (pages : List ListObjectsV2Output) : List Object :=
  (pages.map (fun page => page.Contents)).flatten

/-- The listing capability serves exactly `pages` when the continuation tokens are followed
from `token`: every page but the last is truncated and the last is not. -/
def Listing (client : IAwsClient) (setting : Setting) :
    Option String → List ListObjectsV2Output → Prop
  | _, [] => False
  | token, [page] =>
    client.ListObjectsV2 (listInputOf setting token) = .ok page ∧ page.IsTruncated = some false
  | token, page :: next :: rest =>
    client.ListObjectsV2 (listInputOf setting token) = .ok page ∧ page.IsTruncated = some true ∧
      Listing client setting page.NextContinuationToken (next :: rest)

/-- The object is rejected by the extension rule or by the modified-before rule. -/
def rejected (setting : Setting) (obj : Object) : Bool :=
  match obj.Key with
  | some key => extensionRejects setting key || modifiedRejects setting obj
  | none => false

/-- The object passes both filter rules. -/
def accepted (setting : Setting) (obj : Object) : Bool := !rejected setting obj

/-- The key of an object, empty when the pointer is nil. -/
def keyOf (obj : Object) : String :=
  match obj.Key with
  | some key => key
  | none => ""

/-- The call of `client.Invoke` for object number `k` returns no error. -/
def invokeSucceeds (rt : Runtime) (setting : Setting) (client : IAwsClient)
    (numbered : Nat × Object) : Bool :=
  match buildS3EventPayload rt.marshal (rt.now numbered.1) client.GetConfig setting.Bucket
      numbered.2 with
  | .error _ => false
  | .ok payload =>
    match client.Invoke (invokeInputOf setting payload) with
    | .error _ => false
    | .ok _ => true

/-- Object number `k` is counted as done: it passes the filter and, unless the run is a dry
run, its invocation returns no error. -/
def countsDone (rt : Runtime) (setting : Setting) (client : IAwsClient)
    (numbered : Nat × Object) : Bool :=
  accepted setting numbered.2 && (setting.DryRun || invokeSucceeds rt setting client numbered)

/-- Object number `k` is counted as errored: it passes the filter, the run is no dry run and
its invocation returns an error. -/
def countsErrored (rt : Runtime) (setting : Setting) (client : IAwsClient)
    (numbered : Nat × Object) : Bool :=
  accepted setting numbered.2 && !setting.DryRun && !invokeSucceeds rt setting client numbered

/-- Object number `k` is handed to `client.Invoke`. -/
def isInvoked (setting : Setting) (numbered : Nat × Object) : Bool :=
  accepted setting numbered.2 && !setting.DryRun

/-- What object number `k` adds to `DurationMs`. -/
def durationOf (rt : Runtime) (setting : Setting) (client : IAwsClient)
    (numbered : Nat × Object) : Nat :=
  if isInvoked setting numbered && invokeSucceeds rt setting client numbered then
    rt.elapsedMs numbered.1
  else
    0

/-- The state `st'` is the state `st` after the numbered objects `objs` were processed with no
cancellation, no panic and no wait at the gate. -/
structure Tallied (rt : Runtime) (setting : Setting) (client : IAwsClient)
    (st st' : RunState) (objs : List (Nat × Object)) : Prop where
  sem : st'.sem = st.sem
  seen : st'.seen = st.seen + objs.length
  total : st'.summary.Total = u64add st.summary.Total objs.length
  skipped : st'.summary.Skipped =
    u64add st.summary.Skipped (objs.countP (fun p => rejected setting p.2))
  errored : st'.summary.Errored =
    u64add st.summary.Errored (objs.countP (countsErrored rt setting client))
  done : st'.summary.Done = u64add st.summary.Done (objs.countP (countsDone rt setting client))
  duration : st'.summary.DurationMs =
    u64add st.summary.DurationMs (objs.map (durationOf rt setting client)).sum
  invoked : invokedKeys st'.events =
    invokedKeys st.events ++ (objs.filter (isInvoked setting)).map (fun p => keyOf p.2)
  succeeded : succeededKeys st'.events =
    succeededKeys st.events ++
      (objs.filter (fun p => isInvoked setting p && invokeSucceeds rt setting client p)).map
        (fun p => keyOf p.2)
  launched : launchedKeys st'.events =
    launchedKeys st.events ++ (objs.filter (fun p => accepted setting p.2)).map (fun p => keyOf p.2)

/-! ## The client and the setting of `TestNormalSituation` (app_test.go)

The test client parses the payload it receives; the codec below stands in for the JSON
encoder and parser in the examples. It keeps the bucket name and the object key of every
record and nothing else. -/

/-- The bucket name and the object key of a record. -/
def recordId (r : S3EventRecord) : String × String :=
  (r.S3.Bucket.Name, r.S3.Object.Key)

/-- Every character of `s`, each one after the tag `tag`. -/
def tagChars (tag : Char) : List Char → List Char
  | [] => []
  | c :: s => tag :: c :: tagChars tag s

/-- Text of a list of records: for each record the characters of the bucket name tagged `b`,
the characters of the key tagged `k`, and the mark `r`. -/
def encodeIds : List (List Char × List Char) → List Char
  | [] => []
  | (bucket, key) :: rest => tagChars 'b' bucket ++ (tagChars 'k' key ++ 'r' :: encodeIds rest)

/-- Inverse of `encodeIds`; `none` for a text that is not made of tagged characters and marks,
or that does not end in a mark. -/
def decodeIds : List Char → Option (List (List Char × List Char))
  | [] => some []
  | [tag] => if tag = 'r' then some [([], [])] else none
  | tag :: c :: rest =>
    if tag = 'r' then
      match decodeIds (c :: rest) with
      | some ids => some (([], []) :: ids)
      | none => none
    else
      match decodeIds rest with
      | some ((bucket, key) :: ids) =>
        if tag = 'b' then some ((c :: bucket, key) :: ids)
        else if tag = 'k' then some ((bucket, c :: key) :: ids)
        else none
      | _ => none

/-- A record as the decoder rebuilds it. -/
def recordOfId (id : String × String) : S3EventRecord :=
  { EventVersion := "", EventSource := "", AWSRegion := "", EventTime := ⟨0, 0⟩, EventName := ""
    RequestParameters := { SourceIPAddress := "" }
    ResponseElements := []
    S3 :=
      { SchemaVersion := "", ConfigurationID := ""
        Bucket := { Name := id.1, Arn := "" }
        Object := { Key := id.2, Size := 0, ETag := "" } } }

/-- Encoder of the examples. -/
def demoMarshal (event : S3Event) : Except String String :=
  .ok (String.mk (encodeIds (event.Records.map (fun r => (r.S3.Bucket.Name.toList,
    r.S3.Object.Key.toList)))))

/-- Parser of the examples. -/
def demoUnmarshal (payload : String) : Except String S3Event :=
  match decodeIds payload.toList with
  | some ids => .ok { Records := ids.map (fun id => recordOfId (String.mk id.1, String.mk id.2)) }
  | none => .error "malformed payload"

/-- Runtime of the examples: the demo encoder, a clock that stands still, and `100` ms for every
invocation (the sleep of the test client). -/
def demoRuntime : Runtime :=
  { marshal := demoMarshal, now := fun _ => ⟨0, 0⟩, elapsedMs := fun _ => 100 }

/-- The date `old` of the test: 2024-06-19T00:00:00Z. -/
def testOld : Time := ⟨1718755200, 0⟩

/-- The date `new` of the test: 2024-06-21T00:00:00Z. -/
def testNew : Time := ⟨1718928000, 0⟩

/-- The date `before` of the test: 2024-06-20T00:00:00Z. -/
def testBefore : Time := ⟨1718841600, 0⟩

def testObject (key : String) (modified : Time) : Object :=
  { Key := some key, Size := none, ETag := none, LastModified := some modified }

/-- First page of the test listing (app_test.go lines 52-77). -/
def testPage1 : ListObjectsV2Output :=
  { Contents :=
      [ testObject "my-prefix/1.jpg" testOld, testObject "my-prefix/2.txt" testOld,
        testObject "my-prefix/3.png" testOld, testObject "my-prefix/new.jpg" testNew ]
    NextContinuationToken := some "my-continuation-token"
    IsTruncated := some true }

/-- Second page of the test listing (app_test.go lines 84-98). -/
def testPage2 : ListObjectsV2Output :=
  { Contents := [testObject "my-prefix/4.jpg" testOld, testObject "my-prefix/error.jpg" testOld]
    NextContinuationToken := none
    IsTruncated := some false }

/-- The client `NormalSystemAwsClientMock` (app_test.go lines 30-124); a call to `t.Fatalf` is an
error. -/
def testClient : IAwsClient :=
  { GetConfig := some { Region := "us-east-1" }
    ListObjectsV2 := fun input =>
      if input.Bucket ≠ some "my-bucket" then .error "Unexpected bucket"
      else if input.Prefix ≠ some "my-prefix" then .error "Unexpected prefix"
      else if input.StartAfter ≠ some "my-prefix/0.jpg" then .error "Unexpected start after"
      else if input.ContinuationToken = none ∨ input.ContinuationToken = some "" then
        .ok testPage1
      else if input.ContinuationToken ≠ some "my-continuation-token" then
        .error "Unexpected continuation token"
      else
        .ok testPage2
    Invoke := fun input =>
      if input.FunctionName ≠ some "my-function" then .error "Unexpected function name"
      else
        match demoUnmarshal input.Payload with
        | .error _ => .error "Failed to unmarshal payload"
        | .ok event =>
          match event.Records with
          | [] => .error "index out of range"
          | record :: _ =>
            if record.S3.Object.Key = "my-prefix/error.jpg" then .error "expected error"
            else .ok () }

/-- The setting of `TestNormalSituation` (app_test.go lines 128-136). -/
def testSetting : Setting :=
  { Bucket := "my-bucket", Prefix := "my-prefix", StartAfter := "my-prefix/0.jpg"
    ModifiedBefore := some testBefore, LowerExtensions := [".jpg", ".png"], Parallelism := 100
    FunctionName := "my-function", DryRun := false }

/-- The context that is never cancelled. -/
def neverCancelled : Nat → Bool := fun _ => false

/-- The context that is cancelled before `Run` is called. -/
def alreadyCancelled : Nat → Bool := fun _ => true

/-- Lower case of a text, character by character. -/
def lowerCase (text : String) : String :=
  String.mk (text.toList.map Char.toLower)

/-- The extension rule as the specification words it: with a non-empty set of accepted
extensions, the object is accepted when the lower case of the path extension of its key is in
the set. -/
def specExtensionAccepts (accepted : List String) (key : String) : Bool :=
  accepted.contains (lowerCase (Ext key))

/-- A setting that accepts the extension `.jpg` only. -/
def jpgSetting : Setting :=
  { Bucket := "my-bucket", Prefix := "", StartAfter := "", ModifiedBefore := none
    LowerExtensions := [".jpg"], Parallelism := 100, FunctionName := "my-function"
    DryRun := false }

/-- A client whose bucket holds the one object `a/PHOTO.JPG`. -/
def photoClient : IAwsClient :=
  { GetConfig := none
    ListObjectsV2 := fun _ =>
      .ok { Contents := [{ Key := some "a/PHOTO.JPG", Size := none, ETag := none,
                           LastModified := none }]
            IsTruncated := some false, NextContinuationToken := none }
    Invoke := fun _ => .ok () }

/-- The setting of the test with DryRun on. -/
def dryRunSetting : Setting := { testSetting with DryRun := true }

/-- The setting of the test with DryRun on and a gate of capacity zero. -/
def dryRunNoGate : Setting := { testSetting with DryRun := true, Parallelism := 0 }

/-- A client whose first page is empty and truncated; its second page is the last one and
holds one object. -/
def emptyFirstPageClient : IAwsClient :=
  { GetConfig := none
    ListObjectsV2 := fun input =>
      if input.ContinuationToken = none then
        .ok { Contents := [], IsTruncated := some true, NextContinuationToken := some "next" }
      else
        .ok { Contents := [testObject "my-prefix/1.jpg" testOld], IsTruncated := some false,
              NextContinuationToken := none }
    Invoke := fun _ => .ok () }

/-- No poll of the record found the cancellation signal fired. -/
def NoFired (events : List Event) : Prop := Event.poll true ∉ events

/-- A poll that found the cancellation signal fired, if there is one, is the last action of
the record. -/
def FiredLast (events : List Event) : Prop :=
  NoFired events ∨ ∃ pre, events = pre ++ [.poll true] ∧ NoFired pre

/-- Every launch of a unit comes directly after a poll that found the cancellation signal not
fired. -/
def LaunchAfterPoll (events : List Event) : Prop :=
  ∀ pre key post, events = pre ++ Event.launch key :: post →
    ∃ pre', pre = pre' ++ [Event.poll false]

/-- Every listing request of `calls` that is followed by another one was answered with a page
that holds no object. -/
def EmptyBefore (client : IAwsClient) : List ListObjectsV2Input → Prop
  | [] => True
  | call :: rest =>
    rest = [] ∨ ∃ page, client.ListObjectsV2 call = .ok page ∧ page.Contents = [] ∧
      EmptyBefore client rest

/-- The listing requests `calls` follow one another from `token`: the first carries `token`,
and each later one carries the continuation token of the page returned for the one before. -/
def CallsFrom (client : IAwsClient) (setting : Setting) :
    Option String → List ListObjectsV2Input → Prop
  | _, [] => True
  | token, call :: rest =>
    call = listInputOf setting token ∧
      (rest = [] ∨ ∃ page, client.ListObjectsV2 call = .ok page ∧
        CallsFrom client setting page.NextContinuationToken rest)

/-! ## From a run to the dispatcher -/

/-- What the unit of object number `k` does once launched. -/
def unitKindOf (rt : Runtime) (setting : Setting) (client : IAwsClient)
    (numbered : Nat × Object) : UnitKind :=
  match buildS3EventPayload rt.marshal (rt.now numbered.1) client.GetConfig setting.Bucket
      numbered.2 with
  | .error _ => .buildFails
  | .ok payload =>
    if setting.DryRun then .dryRun
    else
      match client.Invoke (invokeInputOf setting payload) with
      | .error _ => .invokeFails
      | .ok _ => .invokeOk (rt.elapsedMs numbered.1)

/-- The dispatcher of the run over `pages`: the gate has the capacity of the setting, and the
units to launch are those of the accepted objects, in listing order. -/
def Dispatch.ofRun (rt : Runtime) (setting : Setting) (client : IAwsClient)
    (pages : List ListObjectsV2Output) : Dispatch :=
  Dispatch.init setting.Parallelism.toNat
    (((allObjects pages).enum.filter (fun p => accepted setting p.2)).map
      (unitKindOf rt setting client))

/-- A run of `n` steps in a row of the coordinator (`who = 0`) or of unit number `who - 1`. -/
def stepsOf (who : Nat) (n : Nat) : List Nat := List.replicate n who

/-- A schedule for four units, three that invoke with success and one that fails: every unit
runs from its launch to its end before the next one is launched. -/
def inOrderSchedule : List Nat :=
  stepsOf 0 3 ++ stepsOf 1 7 ++ stepsOf 0 3 ++ stepsOf 2 7 ++ stepsOf 0 3 ++ stepsOf 3 7 ++
    stepsOf 0 3 ++ stepsOf 4 5 ++ [0]

/-- A schedule for the same four units: all are launched; the first and the second unit each
enter their call and read `summary.Done` before either writes it; then every unit runs to its
end. -/
def overlappingSchedule : List Nat :=
  stepsOf 0 12 ++ stepsOf 1 2 ++ stepsOf 2 2 ++ stepsOf 1 5 ++ stepsOf 2 5 ++ stepsOf 3 7 ++
    stepsOf 4 5 ++ [0]

/-- A schedule for the same four units: all are launched; the three units that invoke with
success each enter their call and read `summary.Done` before any of them writes it; then every
unit runs to its end. -/
def tripleOverlapSchedule : List Nat :=
  stepsOf 0 12 ++ stepsOf 1 2 ++ stepsOf 2 2 ++ stepsOf 3 2 ++ stepsOf 1 5 ++ stepsOf 2 5 ++
    stepsOf 3 5 ++ stepsOf 4 5 ++ [0]

/-- A schedule for four units of a dry run: all are launched; the first and the second unit
each read `summary.Done` before either writes it; then every unit runs to its end. -/
def dryRunOverlapSchedule : List Nat :=
  stepsOf 0 12 ++ stepsOf 1 1 ++ stepsOf 2 1 ++ stepsOf 1 3 ++ stepsOf 2 3 ++ stepsOf 3 4 ++
    stepsOf 4 4 ++ [0]

/-- Slots of the gate taken by the coordinator for a unit it has not launched yet. -/
def CoordPc.slots : CoordPc → Nat
  | .going _ => 1
  | _ => 0

/-- Invariant of the gate: the slots in use are those of the units in flight and of the
coordinator, and they do not exceed the capacity. -/
def GateInv (s : Dispatch) : Prop :=
  s.inFlight + s.coord.slots = s.sem ∧ s.sem ≤ s.cap

/-- The setting of the test with a gate of capacity two. -/
def twoSlotsSetting : Setting := { testSetting with Parallelism := 2 }

/-- The dispatcher of the test listing under `twoSlotsSetting` after two launches: both units
hold a slot and the gate is full. -/
def gateFull : Dispatch :=
  { cap := 2, pending := [.invokeFails], coord := .sending (.invokeOk 100)
    sem := 2, wg := 3, units := [.start (.invokeOk 100), .start (.invokeOk 100)]
    Done := 0, Errored := 0, DurationMs := 0 }

/-- Number of steps a unit of the kind takes from its launch to its end. -/
def UnitKind.steps : UnitKind → Nat
  | .buildFails => 3
  | .dryRun => 4
  | .invokeFails => 5
  | .invokeOk _ => 7

/-- The schedule in which every unit of `kinds` is launched (three steps of the coordinator) and
then runs to its end before the next one is launched; `i` units were launched before. -/
def inOrderFrom : Nat → List UnitKind → List Nat
  | _, [] => []
  | i, kind :: rest => stepsOf 0 3 ++ (stepsOf (i + 1) kind.steps ++ inOrderFrom (i + 1) rest)

/-- The in-order schedule of a whole run: the units one after the other, then `wg.Wait()`. -/
def inOrder (kinds : List UnitKind) : List Nat := inOrderFrom 0 kinds ++ [0]

/-- The value of `summary.Done` after a unit of the kind has run alone, from the value `d`. -/
def UnitKind.doneAfter (d : Nat) : UnitKind → Nat
  | .dryRun => u64add d 1
  | .invokeOk _ => u64add d 1
  | _ => d

/-- The value of `summary.Errored` after a unit of the kind has run alone, from the value `e`. -/
def UnitKind.erroredAfter (e : Nat) : UnitKind → Nat
  | .invokeFails => u64add e 1
  | _ => e

/-- The value of `summary.DurationMs` after a unit of the kind has run alone, from the value `m`. -/
def UnitKind.durationAfter (m : Nat) : UnitKind → Nat
  | .invokeOk ms => u64add m ms
  | _ => m

/-- The dispatcher between two launches of the in-order schedule: `i` units have finished, the
gate and the wait group are empty. -/
def Dispatch.between (cap i : Nat) (pending : List UnitKind) (d e m : Nat) : Dispatch :=
  { cap := cap, pending := pending, coord := .idle, sem := 0, wg := 0
    units := List.replicate i .finished, Done := d, Errored := e, DurationMs := m }

/-- A client whose listing capability fails. -/
def failingListClient : IAwsClient :=
  { GetConfig := none
    ListObjectsV2 := fun _ => .error "access denied"
    Invoke := fun _ => .ok () }

/-- The unit the coordinator has taken from `pending` and not launched yet, if any. -/
def CoordPc.kinds : CoordPc → List UnitKind
  | .sending kind => [kind]
  | .going kind => [kind]
  | _ => []

/-- The counters `D`, `E`, `M` of the summary while one unit of the kind, standing at the given
position, is the only unit in flight; `d`, `e`, `m` are the counters at its launch. Every value
the unit has read is the value the counter still has. -/
inductive ActiveOk (d e m D E M : Nat) : UnitKind → UnitPc → Prop where
  | start (kind : UnitKind) : D = d → E = e → M = m → ActiveOk d e m D E M kind (.start kind)
  | failing : D = d → E = e → M = m → ActiveOk d e m D E M .invokeFails (.invoking none)
  | calling (ms : Nat) : D = d → E = e → M = m →
      ActiveOk d e m D E M (.invokeOk ms) (.invoking (some ms))
  | dryRead : D = d → E = e → M = m → ActiveOk d e m D E M .dryRun (.doneRead d none)
  | okRead (ms : Nat) : D = d → E = e → M = m →
      ActiveOk d e m D E M (.invokeOk ms) (.doneRead d (some ms))
  | okWritten (ms : Nat) : D = u64add d 1 → E = e → M = m →
      ActiveOk d e m D E M (.invokeOk ms) (.doneWritten ms)
  | okDurationRead (ms : Nat) : D = u64add d 1 → E = e → M = m →
      ActiveOk d e m D E M (.invokeOk ms) (.durationRead m ms)
  | failRead : D = d → E = e → M = m → ActiveOk d e m D E M .invokeFails (.erroredRead e)
  | exiting (kind : UnitKind) : D = kind.doneAfter d → E = kind.erroredAfter e →
      M = kind.durationAfter m → ActiveOk d e m D E M kind .exiting

/-- Invariant of the dispatcher whose gate has capacity one, for the units `kinds` in launch
order. Either no unit is in flight and the counters are those of the units `launched`, run one
after the other; or one unit is in flight, every other launched unit has given its slot back,
and the counters are as `ActiveOk` says. -/
inductive SingleSlot (kinds : List UnitKind) (s : Dispatch) : Prop where
  | quiet (launched : List UnitKind)
      (hcap : s.cap = 1)
      (hkinds : kinds = launched ++ (s.coord.kinds ++ s.pending))
      (hold : ∀ pc ∈ s.units, pc = .released ∨ pc = .finished)
      (hsem : s.sem = s.coord.slots)
      (hD : s.Done = launched.foldl UnitKind.doneAfter 0)
      (hE : s.Errored = launched.foldl UnitKind.erroredAfter 0)
      (hM : s.DurationMs = launched.foldl UnitKind.durationAfter 0) : SingleSlot kinds s
  | busy (launched : List UnitKind) (olds : List UnitPc) (kind : UnitKind) (pc : UnitPc)
      (hcap : s.cap = 1)
      (hkinds : kinds = launched ++ kind :: (s.coord.kinds ++ s.pending))
      (hunits : s.units = olds ++ [pc])
      (hold : ∀ pc ∈ olds, pc = .released ∨ pc = .finished)
      (hsem : s.sem = 1) (hslots : s.coord.slots = 0)
      (hact : ActiveOk (launched.foldl UnitKind.doneAfter 0)
        (launched.foldl UnitKind.erroredAfter 0) (launched.foldl UnitKind.durationAfter 0)
        s.Done s.Errored s.DurationMs kind pc) : SingleSlot kinds s

/-- The setting of the test with a gate of capacity one. -/
def oneSlotSetting : Setting := { testSetting with Parallelism := 1 }

/-- The dispatcher of the test listing under `oneSlotSetting` at the end of a run. -/
def oneSlotEnd : Dispatch :=
  { cap := 1, pending := [], coord := .returned, sem := 0, wg := 0
    units := [.finished, .finished, .finished, .finished]
    Done := 3, Errored := 1, DurationMs := 300 }

/-! ## Lemmas on `Run` -/

theorem u64add_u64add (a x y : Nat) : u64add (u64add a x) y = u64add a (x + y) := by
  unfold u64add
  omega

theorem tallied_at_start (rt : Runtime) (setting : Setting) (client : IAwsClient) :
    Tallied rt setting client RunState.init RunState.init [] := by
  constructor <;> simp [RunState.init, u64add]

theorem Tallied.log_list {rt : Runtime} {setting : Setting} {client : IAwsClient}
    {st₀ st : RunState} {xs : List (Nat × Object)} (input : ListObjectsV2Input)
    (h : Tallied rt setting client st₀ st xs) :
    Tallied rt setting client st₀ (st.log (.list input)) xs := by
  constructor
  · exact h.sem
  · exact h.seen
  · exact h.total
  · exact h.skipped
  · exact h.errored
  · exact h.done
  · exact h.duration
  · simpa [RunState.log, invokedKeys, Event.invokedKey] using h.invoked
  · simpa [RunState.log, succeededKeys, Event.succeededKey] using h.succeeded
  · simpa [RunState.log, launchedKeys, Event.launchedKey] using h.launched

theorem Tallied.trans {rt : Runtime} {setting : Setting} {client : IAwsClient}
    {st₁ st₂ st₃ : RunState} {xs ys : List (Nat × Object)}
    (h₁ : Tallied rt setting client st₁ st₂ xs)
    (h₂ : Tallied rt setting client st₂ st₃ ys) :
    Tallied rt setting client st₁ st₃ (xs ++ ys) := by
  constructor
  · rw [h₂.sem, h₁.sem]
  · rw [h₂.seen, h₁.seen, List.length_append]; omega
  · rw [h₂.total, h₁.total, u64add_u64add, List.length_append]
  · rw [h₂.skipped, h₁.skipped, u64add_u64add, List.countP_append]
  · rw [h₂.errored, h₁.errored, u64add_u64add, List.countP_append]
  · rw [h₂.done, h₁.done, u64add_u64add, List.countP_append]
  · rw [h₂.duration, h₁.duration, u64add_u64add, List.map_append, List.sum_append]
  · rw [h₂.invoked, h₁.invoked, List.filter_append, List.map_append, List.append_assoc]
  · rw [h₂.succeeded, h₁.succeeded, List.filter_append, List.map_append, List.append_assoc]
  · rw [h₂.launched, h₁.launched, List.filter_append, List.map_append, List.append_assoc]

theorem listCalls_append (xs ys : List Event) :
    listCalls (xs ++ ys) = listCalls xs ++ listCalls ys := by
  simp [listCalls]

theorem invokedKeys_append (xs ys : List Event) :
    invokedKeys (xs ++ ys) = invokedKeys xs ++ invokedKeys ys := by
  simp [invokedKeys]

theorem succeededKeys_append (xs ys : List Event) :
    succeededKeys (xs ++ ys) = succeededKeys xs ++ succeededKeys ys := by
  simp [succeededKeys]

theorem launchedKeys_append (xs ys : List Event) :
    launchedKeys (xs ++ ys) = launchedKeys xs ++ launchedKeys ys := by
  simp [launchedKeys]

theorem listCalls_cons (e : Event) (es : List Event) :
    listCalls (e :: es) = e.listInput.toList ++ listCalls es := by
  cases h : e.listInput <;> simp [listCalls, h]

theorem invokedKeys_cons (e : Event) (es : List Event) :
    invokedKeys (e :: es) = e.invokedKey.toList ++ invokedKeys es := by
  cases h : e.invokedKey <;> simp [invokedKeys, h]

theorem succeededKeys_cons (e : Event) (es : List Event) :
    succeededKeys (e :: es) = e.succeededKey.toList ++ succeededKeys es := by
  cases h : e.succeededKey <;> simp [succeededKeys, h]

theorem launchedKeys_cons (e : Event) (es : List Event) :
    launchedKeys (e :: es) = e.launchedKey.toList ++ launchedKeys es := by
  cases h : e.launchedKey <;> simp [launchedKeys, h]

theorem listCalls_nil : listCalls [] = [] := rfl

theorem invokedKeys_nil : invokedKeys [] = [] := rfl

theorem succeededKeys_nil : succeededKeys [] = [] := rfl

theorem launchedKeys_nil : launchedKeys [] = [] := rfl

theorem processObject_tallied (rt : Runtime) (ctx : Nat → Bool) (setting : Setting)
    (client : IAwsClient) (st₀ st : RunState) (pre : List (Nat × Object)) (obj : Object)
    (hpar : 1 ≤ setting.Parallelism) (hctx : ctx st.seen = false)
    (hm : ∀ e, ∃ b, rt.marshal e = .ok b) (hkey : obj.Key ≠ none) (hsem : st.sem = 0)
    (h : Tallied rt setting client st₀ st pre) :
    ∃ st', processObject rt ctx setting client client.GetConfig st obj = (.next, st') ∧
      Tallied rt setting client st₀ st' (pre ++ [(st.seen, obj)]) := by
  obtain ⟨key, hk⟩ := Option.ne_none_iff_exists'.mp hkey
  have hgate : st.sem < setting.Parallelism.toNat := by omega
  obtain ⟨b, hb⟩ := hm (buildS3Event (rt.now st.seen) client.GetConfig setting.Bucket obj)
  have hkeyOf : keyOf obj = key := by simp [keyOf, hk]
  unfold processObject
  simp only [hctx, hk]
  by_cases hx : extensionRejects setting key = true
  · have hrej : rejected setting obj = true := by simp [rejected, hk, hx]
    simp only [hx, if_true, Bool.false_eq_true, if_false]
    refine ⟨_, rfl, ?_⟩
    constructor <;>
      simp [RunState.log, RunState.incTotal, RunState.incSkipped, h.sem, h.seen, h.total,
        h.skipped, h.errored, h.done, h.duration, h.invoked, h.succeeded, h.launched,
        u64add_u64add, List.countP_append, List.countP_cons, countsDone, countsErrored,
        isInvoked, durationOf, accepted, hrej, invokedKeys_append, succeededKeys_append,
        launchedKeys_append, invokedKeys_cons, succeededKeys_cons,
        launchedKeys_cons, invokedKeys_nil, succeededKeys_nil,
        launchedKeys_nil, Event.invokedKey, Event.succeededKey, Event.launchedKey,
        List.filter_cons, Nat.add_assoc]
  · by_cases hmo : modifiedRejects setting obj = true
    · have hrej : rejected setting obj = true := by simp [rejected, hk, hmo]
      simp only [hx, hmo, if_true, Bool.false_eq_true, if_false]
      refine ⟨_, rfl, ?_⟩
      constructor <;>
        simp [RunState.log, RunState.incTotal, RunState.incSkipped, h.sem, h.seen, h.total,
          h.skipped, h.errored, h.done, h.duration, h.invoked, h.succeeded, h.launched,
          u64add_u64add, List.countP_append, List.countP_cons, countsDone, countsErrored,
          isInvoked, durationOf, accepted, hrej, invokedKeys_append, succeededKeys_append,
          launchedKeys_append, invokedKeys_cons, succeededKeys_cons,
          launchedKeys_cons, invokedKeys_nil, succeededKeys_nil,
          launchedKeys_nil, Event.invokedKey, Event.succeededKey, Event.launchedKey,
          List.filter_cons, Nat.add_assoc]
    · have hrej : rejected setting obj = false := by simp [rejected, hk, hx, hmo]
      have hgate' : st.incTotal.sem < setting.Parallelism.toNat := by
        simpa [RunState.incTotal] using hgate
      simp only [hx, hmo, if_true, Bool.false_eq_true, if_false, RunState.log, hgate']
      refine ⟨_, rfl, ?_⟩
      unfold runUnit
      simp only [buildS3EventPayload, hb]
      cases hd : setting.DryRun
      · cases hi : client.Invoke (invokeInputOf setting b)
        · have hinv : invokeSucceeds rt setting client (st.seen, obj) = false := by
            simp [invokeSucceeds, buildS3EventPayload, hb, hi]
          rw [h.seen] at hinv
          constructor <;>
            simp [RunState.log, RunState.incTotal, RunState.incErrored, h.sem, h.seen, h.total,
              h.skipped, h.errored, h.done, h.duration, h.invoked, h.succeeded, h.launched,
              u64add_u64add, List.countP_append, List.countP_cons, countsDone, countsErrored,
              isInvoked, durationOf, accepted, hrej, invokedKeys_append, succeededKeys_append,
              launchedKeys_append, invokedKeys_cons, succeededKeys_cons,
              launchedKeys_cons, invokedKeys_nil, succeededKeys_nil,
              launchedKeys_nil, Event.invokedKey, Event.succeededKey, Event.launchedKey,
              List.filter_cons, Nat.add_assoc, hd, hi, hinv, hkeyOf]
        · have hinv : invokeSucceeds rt setting client (st.seen, obj) = true := by
            simp [invokeSucceeds, buildS3EventPayload, hb, hi]
          rw [h.seen] at hinv
          constructor <;>
            simp [RunState.log, RunState.incTotal, RunState.incDone, RunState.addDuration,
              h.sem, h.seen, h.total,
              h.skipped, h.errored, h.done, h.duration, h.invoked, h.succeeded, h.launched,
              u64add_u64add, List.countP_append, List.countP_cons, countsDone, countsErrored,
              isInvoked, durationOf, accepted, hrej, invokedKeys_append, succeededKeys_append,
              launchedKeys_append, invokedKeys_cons, succeededKeys_cons,
              launchedKeys_cons, invokedKeys_nil, succeededKeys_nil,
              launchedKeys_nil, Event.invokedKey, Event.succeededKey, Event.launchedKey,
              List.filter_cons, Nat.add_assoc, hd, hi, hinv, hkeyOf]
      · constructor <;>
          simp [RunState.log, RunState.incTotal, RunState.incDone, h.sem, h.seen, h.total,
            h.skipped, h.errored, h.done, h.duration, h.invoked, h.succeeded, h.launched,
            u64add_u64add, List.countP_append, List.countP_cons, countsDone, countsErrored,
            isInvoked, durationOf, accepted, hrej, invokedKeys_append, succeededKeys_append,
            launchedKeys_append, invokedKeys_cons, succeededKeys_cons,
            launchedKeys_cons, invokedKeys_nil, succeededKeys_nil,
            launchedKeys_nil, Event.invokedKey, Event.succeededKey, Event.launchedKey,
            List.filter_cons, Nat.add_assoc, hd, hkeyOf]

theorem processContents_tallied (rt : Runtime) (ctx : Nat → Bool) (setting : Setting)
    (client : IAwsClient) (st₀ : RunState) (hpar : 1 ≤ setting.Parallelism)
    (hctx : ∀ k, ctx k = false) (hm : ∀ e, ∃ b, rt.marshal e = .ok b) (hsem : st₀.sem = 0)
    (objs : List Object) :
    ∀ (st : RunState) (pre : List (Nat × Object)), (∀ o ∈ objs, o.Key ≠ none) →
      Tallied rt setting client st₀ st pre →
      ∃ st', processContents rt ctx setting client client.GetConfig st objs = (.next, st') ∧
        Tallied rt setting client st₀ st' (pre ++ List.enumFrom st.seen objs) := by
  induction objs with
  | nil =>
    intro st pre _ h
    exact ⟨st, rfl, by simpa using h⟩
  | cons obj rest ih =>
    intro st pre hkeys h
    obtain ⟨st₁, h₁, ht₁⟩ := processObject_tallied rt ctx setting client st₀ st pre obj hpar
      (hctx _) hm (hkeys obj (List.mem_cons_self _ _)) (by rw [h.sem, hsem]) h
    obtain ⟨st', h₂, ht₂⟩ := ih st₁ (pre ++ [(st.seen, obj)])
      (fun o ho => hkeys o (List.mem_cons_of_mem _ ho)) ht₁
    have hseen : st₁.seen = st.seen + 1 := by
      have e₁ := ht₁.seen
      have e₀ := h.seen
      simp only [List.length_append, List.length_singleton] at e₁
      omega
    refine ⟨st', ?_, ?_⟩
    · simp only [processContents, h₁]
      exact h₂
    · simpa [List.enumFrom_cons, hseen] using ht₂

theorem runLoop_tallied (rt : Runtime) (ctx : Nat → Bool) (setting : Setting)
    (client : IAwsClient) (st₀ : RunState) (hpar : 1 ≤ setting.Parallelism)
    (hctx : ∀ k, ctx k = false) (hm : ∀ e, ∃ b, rt.marshal e = .ok b) (hsem : st₀.sem = 0)
    (pages : List ListObjectsV2Output) :
    ∀ (fuel : Nat) (token : Option String) (st : RunState) (pre : List (Nat × Object)),
      Listing client setting token pages → (∀ o ∈ allObjects pages, o.Key ≠ none) →
      pages.length ≤ fuel → Tallied rt setting client st₀ st pre →
      ∃ st', runLoop rt ctx setting client client.GetConfig fuel token st =
          (.returned st'.summary, st') ∧
        Tallied rt setting client st₀ st' (pre ++ List.enumFrom st.seen (allObjects pages)) := by
  induction pages with
  | nil =>
    intro fuel token st pre hl
    exact absurd hl (by simp [Listing])
  | cons page rest ih =>
    intro fuel token st pre hl hkeys hfuel h
    cases fuel with
    | zero => simp at hfuel
    | succ fuel =>
      have hk₁ : ∀ o ∈ page.Contents, o.Key ≠ none := fun o ho =>
        hkeys o (by simp [allObjects, ho])
      obtain ⟨st₁, h₁, ht₁⟩ := processContents_tallied rt ctx setting client st₀ hpar hctx hm
        hsem page.Contents (st.log (.list (listInputOf setting token))) pre hk₁
        (Tallied.log_list _ h)
      have hseen₁ : st₁.seen = st.seen + page.Contents.length := by
        have e₁ := ht₁.seen
        have e₀ := h.seen
        simp only [List.length_append, List.enumFrom_length, RunState.log] at e₁
        omega
      cases rest with
      | nil =>
        obtain ⟨hcall, htrunc⟩ := hl
        refine ⟨st₁, ?_, ?_⟩
        · simp only [runLoop, hcall, h₁, htrunc]
        · simpa [allObjects, RunState.log] using ht₁
      | cons next rest =>
        obtain ⟨hcall, htrunc, hl'⟩ := hl
        obtain ⟨st', h₂, ht₂⟩ := ih fuel page.NextContinuationToken st₁
          (pre ++ List.enumFrom st.seen page.Contents) hl'
          (fun o ho => hkeys o (by
            simp only [allObjects, List.map_cons, List.flatten_cons, List.mem_append] at ho ⊢
            exact Or.inr ho))
          (by simpa using hfuel) (by simpa [RunState.log] using ht₁)
        refine ⟨st', ?_, ?_⟩
        · simp only [runLoop, hcall, h₁, htrunc]
          exact h₂
        · have hall : allObjects (page :: next :: rest) =
              page.Contents ++ allObjects (next :: rest) := by
            simp [allObjects]
          rw [hall, List.enumFrom_append, ← List.append_assoc, ← hseen₁]
          exact ht₂

theorem length_eq_counts (rt : Runtime) (setting : Setting) (client : IAwsClient)
    (objs : List (Nat × Object)) :
    objs.length = objs.countP (countsDone rt setting client) +
      objs.countP (fun p => rejected setting p.2) +
      objs.countP (countsErrored rt setting client) := by
  induction objs with
  | nil => simp
  | cons p rest ih =>
    simp only [List.length_cons, List.countP_cons, ih, countsDone, countsErrored, accepted]
    rcases Bool.eq_false_or_eq_true (rejected setting p.2) with h₁ | h₁ <;>
      rcases Bool.eq_false_or_eq_true setting.DryRun with h₂ | h₂ <;>
      rcases Bool.eq_false_or_eq_true (invokeSucceeds rt setting client p) with h₃ | h₃ <;>
      simp [h₁, h₂, h₃] <;> omega

theorem countP_snd_enumFrom (q : Object → Bool) (objs : List Object) (n : Nat) :
    (List.enumFrom n objs).countP (fun p => q p.2) = objs.countP q := by
  have h := List.countP_map q Prod.snd (List.enumFrom n objs)
  rw [List.enumFrom_map_snd] at h
  rw [h]
  rfl

theorem filter_snd_enumFrom (q : Object → Bool) (f : Object → String) (objs : List Object)
    (n : Nat) :
    ((List.enumFrom n objs).filter (fun p => q p.2)).map (fun p => f p.2) =
      (objs.filter q).map f := by
  induction objs generalizing n with
  | nil => simp
  | cons o rest ih =>
    simp only [List.enumFrom_cons, List.filter_cons]
    cases q o <;> simp [ih]

/-- The run in which every unit runs to its end before the next one is launched. For a listing
that ends at its first page that is not truncated, a setting with DryRun off and Parallelism at
least 1, no cancellation and objects that all carry a key, that run returns a summary with Total
the number of objects on all pages, Skipped the number of rejected objects, Errored and Done the
numbers of accepted objects whose invocation fails and succeeds; the keys invoked are the keys
of the accepted objects, each once, and Total = Done + Skipped + Errored. -/
theorem Run_counts_every_object (rt : Runtime) (fuel : Nat) (ctx : Nat → Bool)
    (setting : Setting) (client : IAwsClient) (pages : List ListObjectsV2Output)
    (hdry : setting.DryRun = false) (hpar : 1 ≤ setting.Parallelism)
    (hlist : Listing client setting none pages)
    (hkeys : ∀ o ∈ allObjects pages, o.Key ≠ none)
    (hctx : ∀ k, ctx k = false)
    (hm : ∀ e, ∃ b, rt.marshal e = .ok b)
    (hsize : (allObjects pages).length < 2 ^ 64)
    (hfuel : pages.length ≤ fuel) :
    ∃ s, (Run rt fuel ctx setting client).1 = .returned s ∧
      s.Total = (allObjects pages).length ∧
      s.Skipped = ((allObjects pages).filter (rejected setting)).length ∧
      s.Errored = ((allObjects pages).enum.filter
        (fun p => accepted setting p.2 && !invokeSucceeds rt setting client p)).length ∧
      s.Done = ((allObjects pages).enum.filter
        (fun p => accepted setting p.2 && invokeSucceeds rt setting client p)).length ∧
      invokedKeys (Run rt fuel ctx setting client).2 =
        ((allObjects pages).filter (accepted setting)).map keyOf ∧
      succeededKeys (Run rt fuel ctx setting client).2 =
        ((allObjects pages).enum.filter
          (fun p => accepted setting p.2 && invokeSucceeds rt setting client p)).map
          (fun p => keyOf p.2) ∧
      s.Total = s.Done + s.Skipped + s.Errored := by
  obtain ⟨st, hrun, ht⟩ := runLoop_tallied rt ctx setting client RunState.init hpar hctx hm rfl
    pages fuel none RunState.init [] hlist hkeys hfuel (tallied_at_start rt setting client)
  have hnot : ¬ setting.Parallelism < 0 := by omega
  have hparts := length_eq_counts rt setting client (allObjects pages).enum
  have hlen : (allObjects pages).enum.length = (allObjects pages).length := by
    simp [List.enum]
  have hskip : (allObjects pages).enum.countP (fun p => rejected setting p.2) =
      (allObjects pages).countP (rejected setting) :=
    countP_snd_enumFrom (rejected setting) (allObjects pages) 0
  have hE : countsErrored rt setting client =
      fun p => accepted setting p.2 && !invokeSucceeds rt setting client p := by
    funext p
    simp [countsErrored, hdry]
  have hD : countsDone rt setting client =
      fun p => accepted setting p.2 && invokeSucceeds rt setting client p := by
    funext p
    simp [countsDone, hdry]
  have hI : isInvoked setting = fun p => accepted setting p.2 := by
    funext p
    simp [isInvoked, hdry]
  have htotal := ht.total
  have hskipped := ht.skipped
  have herrored := ht.errored
  have hdone := ht.done
  have hinvoked := ht.invoked
  have hsucc := ht.succeeded
  simp only [RunState.init, List.nil_append, u64add, Nat.zero_add, invokedKeys_nil,
    succeededKeys_nil, List.enumFrom_length] at htotal hskipped herrored hdone hinvoked hsucc
  rw [hE] at herrored hparts
  rw [hD] at hdone hparts
  rw [hI] at hinvoked hsucc
  rw [hskip] at hparts
  rw [hlen] at hparts
  change List.countP (fun p => rejected setting p.2) (allObjects pages).enum = _ at hskip
  simp only [List.countP_eq_length_filter] at hparts hskip herrored hdone hskipped
  simp only [List.enum] at hparts hskip ⊢
  rw [hskip] at hskipped
  refine ⟨st.summary, ?_, ?_, ?_, ?_, ?_, ?_, ?_, ?_⟩
  · simp only [Run, hnot, if_false, hrun]
  · omega
  · omega
  · omega
  · omega
  · simp only [Run, hnot, if_false, hrun, hinvoked]
    exact filter_snd_enumFrom (accepted setting) keyOf (allObjects pages) 0
  · simp only [Run, hnot, if_false, hrun, hsucc]
  · omega

/-- The run of `TestNormalSituation` in which the units run one after the other: Total 6,
Done 3, Skipped 2, Errored 1; four keys are invoked and the three of `1.jpg`, `3.png` and
`4.jpg` succeed. -/
theorem Run_counts_every_object_witness :
    ∃ s, (Run demoRuntime 2 neverCancelled testSetting testClient).1 = .returned s ∧
      s.Total = 6 ∧ s.Done = 3 ∧ s.Skipped = 2 ∧ s.Errored = 1 ∧
      invokedKeys (Run demoRuntime 2 neverCancelled testSetting testClient).2 =
        ["my-prefix/1.jpg", "my-prefix/3.png", "my-prefix/4.jpg", "my-prefix/error.jpg"] ∧
      succeededKeys (Run demoRuntime 2 neverCancelled testSetting testClient).2 =
        ["my-prefix/1.jpg", "my-prefix/3.png", "my-prefix/4.jpg"] ∧
      s.Total = s.Done + s.Skipped + s.Errored := by
  obtain ⟨s, h₁, h₂, h₃, h₄, h₅, h₆, h₇, h₈⟩ :=
    Run_counts_every_object demoRuntime 2 neverCancelled testSetting testClient
      [testPage1, testPage2] rfl (by decide) ⟨rfl, rfl, rfl, rfl⟩ (by decide)
      (fun _ => rfl) (fun _ => ⟨_, rfl⟩) (by decide) (by decide)
  exact ⟨s, h₁, h₂.trans (by decide), h₅.trans (by decide), h₃.trans (by decide),
    h₄.trans (by decide), h₆.trans (by decide), h₇.trans (by decide), h₈⟩

/-! ## The filter rules -/

/-- What the extension rule of the code decides: with a non-empty set of accepted extensions
the object is accepted exactly when the path extension of its key, as it is written, is in the
set; with an empty set every object is accepted. -/
theorem extensionRejects_eq_false_iff (setting : Setting) (key : String) :
    extensionRejects setting key = false ↔
      setting.LowerExtensions = [] ∨ Ext key ∈ setting.LowerExtensions := by
  unfold extensionRejects
  cases h : setting.LowerExtensions with
  | nil => simp
  | cons e rest =>
    simp only [List.length_cons, gt_iff_lt, Nat.zero_lt_succ, decide_True, if_true,
      Bool.not_eq_false', List.contains_eq_any_beq, List.any_eq_true, beq_iff_eq, false_or,
      reduceCtorEq]
    constructor
    · rintro ⟨x, hx, rfl⟩
      exact hx
    · intro hx
      exact ⟨_, hx, rfl⟩

/-- With an empty set of accepted extensions the extension rule accepts every key. -/
theorem extensionRejects_of_no_extensions (setting : Setting) (key : String)
    (h : setting.LowerExtensions = []) : extensionRejects setting key = false :=
  (extensionRejects_eq_false_iff setting key).mpr (Or.inl h)

/-- The key `a/PHOTO.JPG` under a setting with no accepted extensions. -/
theorem extensionRejects_of_no_extensions_witness :
    extensionRejects { jpgSetting with LowerExtensions := [] } "a/PHOTO.JPG" = false :=
  extensionRejects_of_no_extensions _ _ rfl

/-- C5 at the failing input. With the accepted set `.jpg`, the rule of the code rejects the key
`a/PHOTO.JPG`, whose path extension is `.JPG` and is compared as written, although the lower
case of that extension is in the set; the run over a bucket holding this object counts it as
skipped and invokes nothing. -/
theorem extension_rule_compares_case_as_written :
    Ext "a/PHOTO.JPG" = ".JPG" ∧
      specExtensionAccepts jpgSetting.LowerExtensions "a/PHOTO.JPG" = true ∧
      extensionRejects jpgSetting "a/PHOTO.JPG" = true ∧
      Run demoRuntime 1 neverCancelled jpgSetting photoClient =
        (.returned { Total := 1, Done := 0, Skipped := 1, Errored := 0, DurationMs := 0 },
          [.list (listInputOf jpgSetting none), .poll false]) := by
  refine ⟨by decide, by decide, by decide, by decide⟩

/-- C6. The modified-before rule rejects an object exactly when a cutoff is set, the object has
a last-modified time and the cutoff is strictly before that time; an object modified at the
cutoff is accepted, and so is an object with no last-modified time under every cutoff. -/
theorem modifiedRejects_iff (setting : Setting) (obj : Object) :
    (modifiedRejects setting obj = true ↔
      ∃ cutoff modified, setting.ModifiedBefore = some cutoff ∧
        obj.LastModified = some modified ∧
        (cutoff.sec < modified.sec ∨ (cutoff.sec = modified.sec ∧ cutoff.nsec < modified.nsec))) ∧
    (∀ cutoff, setting.ModifiedBefore = some cutoff → obj.LastModified = some cutoff →
      modifiedRejects setting obj = false) ∧
    (obj.LastModified = none → modifiedRejects setting obj = false) := by
  refine ⟨?_, ?_, ?_⟩
  · unfold modifiedRejects
    cases hc : setting.ModifiedBefore with
    | none => simp
    | some cutoff =>
      cases hl : obj.LastModified with
      | none => simp
      | some modified => simp [Time.Before]
  · intro cutoff hc hl
    simp [modifiedRejects, hc, hl, Time.Before]
  · intro hl
    unfold modifiedRejects
    cases hc : setting.ModifiedBefore <;> simp [hl]

/-- The rule of C6 on the dates of the test: with the cutoff 2024-06-20, the object modified on
2024-06-21 is rejected, the object modified at the cutoff is accepted, and so is the object
without a last-modified time. -/
theorem modifiedRejects_iff_witness :
    modifiedRejects testSetting (testObject "my-prefix/new.jpg" testNew) = true ∧
      modifiedRejects testSetting (testObject "my-prefix/1.jpg" testBefore) = false ∧
      modifiedRejects testSetting
        { Key := some "my-prefix/1.jpg", Size := none, ETag := none, LastModified := none } =
        false :=
  ⟨(modifiedRejects_iff testSetting (testObject "my-prefix/new.jpg" testNew)).1.mpr
      ⟨testBefore, testNew, rfl, rfl, Or.inl (by decide)⟩,
    (modifiedRejects_iff testSetting (testObject "my-prefix/1.jpg" testBefore)).2.1
      testBefore rfl rfl,
    (modifiedRejects_iff testSetting
      { Key := some "my-prefix/1.jpg", Size := none, ETag := none, LastModified := none }).2.2
      rfl⟩

/-! ## Cancellation and the counters -/

/-- C4 at the failing input. With the cancellation signal set before the call, `Run` on the
test listing returns a summary with Total = 1 and Done = Skipped = Errored = 0: the object at
which the signal is found is counted in Total (line 115 precedes the poll of line 117) and in
no other counter. -/
theorem Run_cancelled_counts_polled_object :
    Run demoRuntime 2 alreadyCancelled testSetting testClient =
      (.returned { Total := 1, Done := 0, Skipped := 0, Errored := 0, DurationMs := 0 },
        [.list (listInputOf testSetting none), .poll true]) := by
  decide

/-! ## Dry run -/

/-- A gate of capacity zero. With Parallelism = 0 the channel `sem` has no buffer: when the
first object of the first page passes both filter rules and the signal has not fired, the
coordinator waits for ever at the send of line 142 and `Run` returns nothing. -/
theorem Run_blocks_without_gate (rt : Runtime) (fuel : Nat) (ctx : Nat → Bool)
    (setting : Setting) (client : IAwsClient) (page : ListObjectsV2Output) (obj : Object)
    (rest : List Object) (key : String)
    (hpar : setting.Parallelism = 0) (hfuel : 0 < fuel) (hctx : ctx 0 = false)
    (hcall : client.ListObjectsV2 (listInputOf setting none) = .ok page)
    (hcont : page.Contents = obj :: rest) (hkey : obj.Key = some key)
    (hacc : accepted setting obj = true) :
    (Run rt fuel ctx setting client).1 = .blocked := by
  obtain ⟨n, rfl⟩ : ∃ n, fuel = n + 1 := ⟨fuel - 1, by omega⟩
  have hrej : extensionRejects setting key = false ∧ modifiedRejects setting obj = false := by
    simpa [accepted, rejected, hkey] using hacc
  simp [Run, hpar, runLoop, hcall, hcont, processContents, processObject, hctx, hkey, hrej.1,
    hrej.2, RunState.init, RunState.log, RunState.incTotal]

/-- The test listing with DryRun on and Parallelism = 0: `Run` waits at the gate for the unit of
`1.jpg`. -/
theorem Run_blocks_without_gate_witness :
    (Run demoRuntime 2 neverCancelled dryRunNoGate testClient).1 = .blocked :=
  Run_blocks_without_gate demoRuntime 2 neverCancelled dryRunNoGate testClient testPage1
    (testObject "my-prefix/1.jpg" testOld) _ "my-prefix/1.jpg" rfl (by decide) rfl rfl rfl rfl
    (by decide)

/-- The dry run in which every unit runs to its end before the next one is launched. For a
listing that ends at its first page that is not truncated and a setting with DryRun on and
Parallelism at least 1, with no cancellation, that run makes no call to the invocation
capability and returns a summary with Done the number of objects that pass both filter rules,
Errored = 0 and DurationMs = 0. -/
theorem Run_dry_run (rt : Runtime) (fuel : Nat) (ctx : Nat → Bool)
    (setting : Setting) (client : IAwsClient) (pages : List ListObjectsV2Output)
    (hdry : setting.DryRun = true) (hpar : 1 ≤ setting.Parallelism)
    (hlist : Listing client setting none pages)
    (hkeys : ∀ o ∈ allObjects pages, o.Key ≠ none)
    (hctx : ∀ k, ctx k = false)
    (hm : ∀ e, ∃ b, rt.marshal e = .ok b)
    (hsize : (allObjects pages).length < 2 ^ 64)
    (hfuel : pages.length ≤ fuel) :
    ∃ s, (Run rt fuel ctx setting client).1 = .returned s ∧
      invokedKeys (Run rt fuel ctx setting client).2 = [] ∧
      s.Done = ((allObjects pages).filter (accepted setting)).length ∧
      s.Errored = 0 ∧ s.DurationMs = 0 := by
  obtain ⟨st, hrun, ht⟩ := runLoop_tallied rt ctx setting client RunState.init hpar hctx hm rfl
    pages fuel none RunState.init [] hlist hkeys hfuel (tallied_at_start rt setting client)
  have hnot : ¬ setting.Parallelism < 0 := by omega
  have hE : countsErrored rt setting client = fun _ => false := by
    funext p
    simp [countsErrored, hdry]
  have hD : countsDone rt setting client = fun p => accepted setting p.2 := by
    funext p
    simp [countsDone, hdry]
  have hI : isInvoked setting = fun _ => false := by
    funext p
    simp [isInvoked, hdry]
  have hU : durationOf rt setting client = fun _ => 0 := by
    funext p
    simp [durationOf, isInvoked, hdry]
  have hcount : (List.enumFrom 0 (allObjects pages)).countP (fun p => accepted setting p.2) =
      (allObjects pages).countP (accepted setting) :=
    countP_snd_enumFrom (accepted setting) (allObjects pages) 0
  have hle := List.countP_le_length (accepted setting) (l := allObjects pages)
  have herrored := ht.errored
  have hdone := ht.done
  have hduration := ht.duration
  have hinvoked := ht.invoked
  rw [hE] at herrored
  rw [hD] at hdone
  rw [hI] at hinvoked
  rw [hU] at hduration
  simp only [RunState.init, List.nil_append, u64add, Nat.zero_add, invokedKeys_nil,
    List.countP_false, List.filter_false, List.map_nil, hcount, List.map_const', List.sum_replicate,
    smul_eq_mul, Nat.mul_zero, Nat.zero_mod] at herrored hdone hduration hinvoked
  refine ⟨st.summary, ?_, ?_, ?_, herrored, hduration⟩
  · simp only [Run, hnot, if_false, hrun]
  · simp only [Run, hnot, if_false, hrun, hinvoked]
  · rw [hdone, ← List.countP_eq_length_filter]
    omega

/-- The dry run over the test listing in which the units run one after the other: no
invocation, and Done = 4, the number of objects that pass both filter rules. -/
theorem Run_dry_run_witness :
    ∃ s, (Run demoRuntime 2 neverCancelled dryRunSetting testClient).1 = .returned s ∧
      invokedKeys (Run demoRuntime 2 neverCancelled dryRunSetting testClient).2 = [] ∧
      s.Done = 4 ∧ s.Errored = 0 ∧ s.DurationMs = 0 := by
  obtain ⟨s, h₁, h₂, h₃, h₄, h₅⟩ :=
    Run_dry_run demoRuntime 2 neverCancelled dryRunSetting testClient
      [testPage1, testPage2] rfl (by decide) ⟨rfl, rfl, rfl, rfl⟩ (by decide)
      (fun _ => rfl) (fun _ => ⟨_, rfl⟩) (by decide) (by decide)
  exact ⟨s, h₁, h₂, h₃.trans (by decide), h₄, h₅⟩

/-! ## Cancellation: what follows a poll that finds the signal fired -/

theorem runUnit_events (rt : Runtime) (setting : Setting) (client : IAwsClient)
    (cfg : Option Config) (k : Nat) (key : String) (obj : Object) (st : RunState)
    (h : NoFired st.events) :
    NoFired (runUnit rt setting client cfg k key obj st).events := by
  simp only [runUnit]
  cases hb : buildS3EventPayload rt.marshal (rt.now k) cfg setting.Bucket obj with
  | error e => simpa using h
  | ok payload =>
    cases hd : setting.DryRun with
    | true => simpa [RunState.incDone] using h
    | false =>
      cases hi : client.Invoke (invokeInputOf setting payload) with
      | error e => simpa [hi, NoFired, RunState.incErrored, RunState.log] using h
      | ok u =>
        simpa [hi, NoFired, RunState.incDone, RunState.addDuration, RunState.log] using h

theorem processObject_events (rt : Runtime) (ctx : Nat → Bool) (setting : Setting)
    (client : IAwsClient) (cfg : Option Config) (st : RunState) (obj : Object)
    (h : NoFired st.events) :
    ((processObject rt ctx setting client cfg st obj).1 = .breakAll ∧
        (processObject rt ctx setting client cfg st obj).2.events = st.events ++ [.poll true]) ∨
      ((processObject rt ctx setting client cfg st obj).1 ≠ .breakAll ∧
        NoFired (processObject rt ctx setting client cfg st obj).2.events) := by
  simp only [processObject]
  cases hc : ctx st.seen with
  | true => left; simp [RunState.log, RunState.incTotal]
  | false =>
    right
    have h₁ : NoFired (st.events ++ [Event.poll false]) := by
      simpa [NoFired] using h
    cases hk : obj.Key with
    | none => simpa [RunState.log, RunState.incTotal] using h₁
    | some key =>
      by_cases hx : extensionRejects setting key = true
      · simpa [hx, RunState.log, RunState.incTotal, RunState.incSkipped] using h₁
      · by_cases hmo : modifiedRejects setting obj = true
        · simpa [hx, hmo, RunState.log, RunState.incTotal, RunState.incSkipped] using h₁
        · by_cases hg : st.sem < setting.Parallelism.toNat
          · simp only [hx, hmo, Bool.false_eq_true, if_false, RunState.log, RunState.incTotal, hg,
              if_true, ne_eq, reduceCtorEq, not_false_eq_true, true_and]
            apply runUnit_events
            simpa [NoFired] using h
          · simpa [hx, hmo, hg, RunState.log, RunState.incTotal] using h₁

theorem processContents_events (rt : Runtime) (ctx : Nat → Bool) (setting : Setting)
    (client : IAwsClient) (cfg : Option Config) (objs : List Object) :
    ∀ st : RunState, NoFired st.events →
      ((processContents rt ctx setting client cfg st objs).1 = .breakAll ∧
          ∃ pre, (processContents rt ctx setting client cfg st objs).2.events =
            pre ++ [.poll true] ∧ NoFired pre) ∨
        ((processContents rt ctx setting client cfg st objs).1 ≠ .breakAll ∧
          NoFired (processContents rt ctx setting client cfg st objs).2.events) := by
  induction objs with
  | nil =>
    intro st h
    right
    exact ⟨by simp [processContents], by simpa [processContents] using h⟩
  | cons obj rest ih =>
    intro st h
    rcases processObject_events rt ctx setting client cfg st obj h with ⟨hf, he⟩ | ⟨hf, he⟩
    · left
      rcases hp : processObject rt ctx setting client cfg st obj with ⟨flow, st₁⟩
      rw [hp] at hf he
      simp only at hf he
      subst hf
      simp only [processContents, hp]
      exact ⟨trivial, st.events, he, h⟩
    · rcases hp : processObject rt ctx setting client cfg st obj with ⟨flow, st₁⟩
      rw [hp] at hf he
      simp only at hf he
      cases flow with
      | next =>
        simp only [processContents, hp]
        exact ih st₁ he
      | breakAll => exact absurd rfl hf
      | panicked =>
        right
        simp only [processContents, hp]
        exact ⟨by simp, he⟩
      | blocked =>
        right
        simp only [processContents, hp]
        exact ⟨by simp, he⟩

theorem runLoop_events (rt : Runtime) (ctx : Nat → Bool) (setting : Setting)
    (client : IAwsClient) (cfg : Option Config) (fuel : Nat) :
    ∀ (token : Option String) (st : RunState), NoFired st.events →
      FiredLast (runLoop rt ctx setting client cfg fuel token st).2.events := by
  induction fuel with
  | zero =>
    intro token st h
    exact Or.inl (by simpa [runLoop] using h)
  | succ fuel ih =>
    intro token st h
    have h₁ : NoFired (st.log (.list (listInputOf setting token))).events := by
      simpa [NoFired, RunState.log] using h
    simp only [runLoop]
    cases hcall : client.ListObjectsV2 (listInputOf setting token) with
    | error err => exact Or.inl h₁
    | ok out =>
      simp only []
      rcases processContents_events rt ctx setting client cfg out.Contents _ h₁ with
        ⟨hf, pre, he, hpre⟩ | ⟨hf, he⟩
      · rcases hp : processContents rt ctx setting client cfg
          (st.log (.list (listInputOf setting token))) out.Contents with ⟨flow, st₁⟩
        rw [hp] at hf he
        simp only at hf he
        subst hf
        exact Or.inr ⟨pre, he, hpre⟩
      · rcases hp : processContents rt ctx setting client cfg
          (st.log (.list (listInputOf setting token))) out.Contents with ⟨flow, st₁⟩
        rw [hp] at hf he
        simp only at hf he
        cases flow with
        | breakAll => exact absurd rfl hf
        | panicked => exact Or.inl he
        | blocked => exact Or.inl he
        | next =>
          simp only []
          cases htr : out.IsTruncated with
          | none => exact Or.inl he
          | some t =>
            cases t with
            | true => exact ih _ _ he
            | false => exact Or.inl he

theorem FiredLast.post_eq_nil {events : List Event} (h : FiredLast events)
    (pre post : List Event) (he : events = pre ++ Event.poll true :: post) : post = [] := by
  rcases h with h | ⟨pre', hpre', hno⟩
  · exact absurd (by simp [he]) h
  · rcases List.eq_nil_or_concat post with hp | ⟨post', x, hp⟩
    · exact hp
    · exfalso
      subst hp
      rw [he] at hpre'
      have h₂ : (pre ++ Event.poll true :: post') ++ [x] = pre' ++ [Event.poll true] := by
        simpa using hpre'
      have h₃ := List.append_inj' h₂ rfl
      apply hno
      rw [← h₃.1]
      simp

/-- C3 as stated fails: with the signal already set when `Run` is called and a first page that is
empty and truncated, `Run` requests the second page as well; the signal is polled only in the
loop over the objects of a page. -/
theorem Run_cancelled_requests_page_after_empty_page :
    listCalls (Run demoRuntime 3 alreadyCancelled testSetting emptyFirstPageClient).2 =
      [listInputOf testSetting none, listInputOf testSetting (some "next")] := by
  decide

theorem launchAfterPoll_nil : LaunchAfterPoll [] := by
  intro pre key post h
  simp at h

theorem LaunchAfterPoll.append_other {events new : List Event} (h : LaunchAfterPoll events)
    (hnew : ∀ key, Event.launch key ∉ new) : LaunchAfterPoll (events ++ new) := by
  intro pre key post he
  rcases List.append_eq_append_iff.mp he with ⟨a', _, h₂⟩ | ⟨c', h₁, h₂⟩
  · exact absurd (by simp [h₂]) (hnew key)
  · cases c' with
    | nil =>
      simp only [List.nil_append] at h₂
      exact absurd (by simp [← h₂]) (hnew key)
    | cons x c'' =>
      simp only [List.cons_append, List.cons.injEq] at h₂
      obtain ⟨rfl, _⟩ := h₂
      exact h pre key c'' h₁

theorem LaunchAfterPoll.append_launch {events : List Event} (h : LaunchAfterPoll events)
    (k : String) : LaunchAfterPoll (events ++ [Event.poll false, Event.launch k]) := by
  intro pre key post he
  rcases List.append_eq_append_iff.mp he with ⟨a', h₁, h₂⟩ | ⟨c', h₁, h₂⟩
  · cases a' with
    | nil => simp at h₂
    | cons x a'' =>
      simp only [List.cons_append, List.cons.injEq] at h₂
      obtain ⟨rfl, h₃⟩ := h₂
      cases a'' with
      | nil => exact ⟨events, h₁⟩
      | cons y a₃ =>
        simp only [List.cons_append, List.cons.injEq] at h₃
        obtain ⟨_, h₄⟩ := h₃
        simp at h₄
  · cases c' with
    | nil => simp at h₂
    | cons x c'' =>
      simp only [List.cons_append, List.cons.injEq] at h₂
      obtain ⟨rfl, _⟩ := h₂
      exact h pre key c'' h₁

theorem runUnit_launches (rt : Runtime) (setting : Setting) (client : IAwsClient)
    (cfg : Option Config) (k : Nat) (key : String) (obj : Object) (st : RunState)
    (h : LaunchAfterPoll st.events) :
    LaunchAfterPoll (runUnit rt setting client cfg k key obj st).events := by
  simp only [runUnit]
  cases hb : buildS3EventPayload rt.marshal (rt.now k) cfg setting.Bucket obj with
  | error e => simpa using h
  | ok payload =>
    cases hd : setting.DryRun with
    | true => simpa [RunState.incDone] using h
    | false =>
      cases hi : client.Invoke (invokeInputOf setting payload) with
      | error e =>
        simp only [hi, RunState.incErrored, RunState.log, Bool.false_eq_true, if_false]
        exact h.append_other (by simp)
      | ok u =>
        simp only [hi, RunState.incDone, RunState.addDuration, RunState.log,
          Bool.false_eq_true, if_false]
        exact h.append_other (by simp)

theorem processObject_launches (rt : Runtime) (ctx : Nat → Bool) (setting : Setting)
    (client : IAwsClient) (cfg : Option Config) (st : RunState) (obj : Object)
    (h : LaunchAfterPoll st.events) :
    LaunchAfterPoll (processObject rt ctx setting client cfg st obj).2.events := by
  simp only [processObject]
  have h₁ : ∀ b, LaunchAfterPoll (st.events ++ [Event.poll b]) := fun b =>
    h.append_other (by simp)
  cases hc : ctx st.seen with
  | true => simpa [RunState.log, RunState.incTotal] using h₁ true
  | false =>
    cases hk : obj.Key with
    | none => simpa [RunState.log, RunState.incTotal] using h₁ false
    | some key =>
      by_cases hx : extensionRejects setting key = true
      · simpa [hx, RunState.log, RunState.incTotal, RunState.incSkipped] using h₁ false
      · by_cases hmo : modifiedRejects setting obj = true
        · simpa [hx, hmo, RunState.log, RunState.incTotal, RunState.incSkipped] using h₁ false
        · by_cases hg : st.sem < setting.Parallelism.toNat
          · simp only [hx, hmo, Bool.false_eq_true, if_false, RunState.log, RunState.incTotal, hg,
              if_true]
            apply runUnit_launches
            simpa using h.append_launch key
          · simpa [hx, hmo, hg, RunState.log, RunState.incTotal] using h₁ false

theorem processContents_launches (rt : Runtime) (ctx : Nat → Bool) (setting : Setting)
    (client : IAwsClient) (cfg : Option Config) (objs : List Object) :
    ∀ st : RunState, LaunchAfterPoll st.events →
      LaunchAfterPoll (processContents rt ctx setting client cfg st objs).2.events := by
  induction objs with
  | nil =>
    intro st h
    exact h
  | cons obj rest ih =>
    intro st h
    have h₁ := processObject_launches rt ctx setting client cfg st obj h
    rcases hp : processObject rt ctx setting client cfg st obj with ⟨flow, st₁⟩
    rw [hp] at h₁
    simp only at h₁
    cases flow with
    | next =>
      simp only [processContents, hp]
      exact ih st₁ h₁
    | breakAll => simpa only [processContents, hp] using h₁
    | panicked => simpa only [processContents, hp] using h₁
    | blocked => simpa only [processContents, hp] using h₁

theorem runLoop_launches (rt : Runtime) (ctx : Nat → Bool) (setting : Setting)
    (client : IAwsClient) (cfg : Option Config) (fuel : Nat) :
    ∀ (token : Option String) (st : RunState), LaunchAfterPoll st.events →
      LaunchAfterPoll (runLoop rt ctx setting client cfg fuel token st).2.events := by
  induction fuel with
  | zero =>
    intro token st h
    exact h
  | succ fuel ih =>
    intro token st h
    have h₁ : LaunchAfterPoll (st.log (.list (listInputOf setting token))).events :=
      h.append_other (by simp)
    simp only [runLoop]
    cases hcall : client.ListObjectsV2 (listInputOf setting token) with
    | error err => exact h₁
    | ok out =>
      simp only []
      have h₂ := processContents_launches rt ctx setting client cfg out.Contents _ h₁
      rcases hp : processContents rt ctx setting client cfg
        (st.log (.list (listInputOf setting token))) out.Contents with ⟨flow, st₁⟩
      rw [hp] at h₂
      simp only at h₂
      cases flow with
      | breakAll => exact h₂
      | panicked => exact h₂
      | blocked => exact h₂
      | next =>
        simp only []
        cases htr : out.IsTruncated with
        | none => exact h₂
        | some t =>
          cases t with
          | true => exact ih _ _ h₂
          | false => exact h₂

theorem processContents_set (rt : Runtime) (ctx : Nat → Bool) (setting : Setting)
    (client : IAwsClient) (cfg : Option Config) (hset : ∀ k, ctx k = true) (st : RunState)
    (obj : Object) (rest : List Object) :
    (processContents rt ctx setting client cfg st (obj :: rest)).1 = .breakAll ∧
      (processContents rt ctx setting client cfg st (obj :: rest)).2.events =
        st.events ++ [Event.poll true] := by
  simp [processContents, processObject, hset, RunState.log, RunState.incTotal]

theorem runLoop_set (rt : Runtime) (ctx : Nat → Bool) (setting : Setting)
    (client : IAwsClient) (cfg : Option Config) (hset : ∀ k, ctx k = true) (fuel : Nat) :
    ∀ (token : Option String) (st : RunState),
      launchedKeys (runLoop rt ctx setting client cfg fuel token st).2.events =
          launchedKeys st.events ∧
        invokedKeys (runLoop rt ctx setting client cfg fuel token st).2.events =
          invokedKeys st.events ∧
        ∃ calls, listCalls (runLoop rt ctx setting client cfg fuel token st).2.events =
            listCalls st.events ++ calls ∧ EmptyBefore client calls := by
  induction fuel with
  | zero =>
    intro token st
    exact ⟨rfl, rfl, [], by simp [runLoop], trivial⟩
  | succ fuel ih =>
    intro token st
    have hl : launchedKeys (st.log (.list (listInputOf setting token))).events =
        launchedKeys st.events := by
      simp [RunState.log, launchedKeys_append, launchedKeys_cons, launchedKeys_nil,
        Event.launchedKey]
    have hi : invokedKeys (st.log (.list (listInputOf setting token))).events =
        invokedKeys st.events := by
      simp [RunState.log, invokedKeys_append, invokedKeys_cons, invokedKeys_nil,
        Event.invokedKey]
    have hc : listCalls (st.log (.list (listInputOf setting token))).events =
        listCalls st.events ++ [listInputOf setting token] := by
      simp [RunState.log, listCalls_append, listCalls_cons, listCalls_nil, Event.listInput]
    have hone : EmptyBefore client [listInputOf setting token] := Or.inl rfl
    simp only [runLoop]
    cases hcall : client.ListObjectsV2 (listInputOf setting token) with
    | error err => exact ⟨hl, hi, _, hc, hone⟩
    | ok out =>
      simp only []
      cases hcont : out.Contents with
      | nil =>
        simp only [processContents]
        cases htr : out.IsTruncated with
        | none => exact ⟨hl, hi, _, hc, hone⟩
        | some t =>
          cases t with
          | false => exact ⟨hl, hi, _, hc, hone⟩
          | true =>
            obtain ⟨h₁, h₂, calls, h₃, h₄⟩ := ih out.NextContinuationToken
              (st.log (.list (listInputOf setting token)))
            refine ⟨h₁.trans hl, h₂.trans hi, listInputOf setting token :: calls, ?_,
              Or.inr ⟨out, hcall, hcont, h₄⟩⟩
            simp only []
            rw [h₃, hc]
            simp
      | cons obj rest =>
        obtain ⟨hf, he⟩ := processContents_set rt ctx setting client cfg hset
          (st.log (.list (listInputOf setting token))) obj rest
        rcases hp : processContents rt ctx setting client cfg
          (st.log (.list (listInputOf setting token))) (obj :: rest) with ⟨flow, st₁⟩
        rw [hp] at hf he
        simp only at hf he
        subst hf
        simp only []
        refine ⟨?_, ?_, [listInputOf setting token], ?_, hone⟩
        · rw [he, launchedKeys_append, hl]
          simp [launchedKeys_cons, launchedKeys_nil, Event.launchedKey]
        · rw [he, invokedKeys_append, hi]
          simp [invokedKeys_cons, invokedKeys_nil, Event.invokedKey]
        · rw [he, listCalls_append, hc]
          simp [listCalls_cons, listCalls_nil, Event.listInput]

theorem EmptyBefore.followed {client : IAwsClient} :
    ∀ {calls : List ListObjectsV2Input}, EmptyBefore client calls →
      ∀ (i : Nat) (call next : ListObjectsV2Input), calls[i]? = some call →
        calls[i + 1]? = some next →
        ∃ page, client.ListObjectsV2 call = .ok page ∧ page.Contents = [] := by
  intro calls
  induction calls with
  | nil =>
    intro _ i call next hc
    simp at hc
  | cons c rest ih =>
    intro h i call next hc hn
    rcases h with rfl | ⟨page, hpage, hempty, hrest⟩
    · simp at hn
    · cases i with
      | zero =>
        simp only [List.getElem?_cons_zero, Option.some.injEq] at hc
        subst hc
        exact ⟨page, hpage, hempty⟩
      | succ j =>
        simp only [List.getElem?_cons_succ] at hc hn
        exact ih hrest j call next hc hn

/-- C3, amended. In every run a unit is launched only directly after a poll that found the
cancellation signal not fired, and a poll that finds the signal fired is the last action: no
unit is launched and no page is requested after it. When the signal is already set when `Run` is
called, `Run` launches no unit and makes no invocation, whatever the listing capability returns,
and every page it requests before another one holds no object: no page is requested after the
first page that holds at least one object. When that is the first page, `Run` requests it alone
and returns. -/
theorem Run_stops_at_fired_poll (rt : Runtime) (fuel : Nat) (ctx : Nat → Bool)
    (setting : Setting) (client : IAwsClient) :
    (∀ pre key post, (Run rt fuel ctx setting client).2 = pre ++ Event.launch key :: post →
      ∃ pre', pre = pre' ++ [Event.poll false]) ∧
    (∀ pre post, (Run rt fuel ctx setting client).2 = pre ++ Event.poll true :: post →
      post = []) ∧
    ((∀ k, ctx k = true) →
      launchedKeys (Run rt fuel ctx setting client).2 = [] ∧
      invokedKeys (Run rt fuel ctx setting client).2 = [] ∧
      ∀ (i : Nat) (call next : ListObjectsV2Input),
        (listCalls (Run rt fuel ctx setting client).2)[i]? = some call →
        (listCalls (Run rt fuel ctx setting client).2)[i + 1]? = some next →
        ∃ page, client.ListObjectsV2 call = .ok page ∧ page.Contents = []) ∧
    (∀ page obj rest, (∀ k, ctx k = true) → 0 ≤ setting.Parallelism → 0 < fuel →
      client.ListObjectsV2 (listInputOf setting none) = .ok page →
      page.Contents = obj :: rest →
      Run rt fuel ctx setting client =
        (.returned { Total := 1, Done := 0, Skipped := 0, Errored := 0, DurationMs := 0 },
          [.list (listInputOf setting none), .poll true])) := by
  refine ⟨?_, ?_, ?_, ?_⟩
  · intro pre key post he
    by_cases hneg : setting.Parallelism < 0
    · simp [Run, hneg] at he
    · have hinv := runLoop_launches rt ctx setting client client.GetConfig fuel none
        RunState.init (by simpa [RunState.init] using launchAfterPoll_nil)
      simp only [Run, hneg, if_false] at he
      exact hinv pre key post he
  · intro pre post he
    by_cases hneg : setting.Parallelism < 0
    · simp [Run, hneg] at he
    · have hlast := runLoop_events rt ctx setting client client.GetConfig fuel none
        RunState.init (by simp [NoFired, RunState.init])
      simp only [Run, hneg, if_false] at he
      exact hlast.post_eq_nil pre post he
  · intro hset
    by_cases hneg : setting.Parallelism < 0
    · simp [Run, hneg, launchedKeys_nil, invokedKeys_nil, listCalls_nil]
    · obtain ⟨h₁, h₂, calls, h₃, h₄⟩ := runLoop_set rt ctx setting client client.GetConfig hset
        fuel none RunState.init
      have hcalls : listCalls (Run rt fuel ctx setting client).2 = calls := by
        simp only [Run, hneg, if_false]
        rw [h₃]
        simp [RunState.init, listCalls_nil]
      refine ⟨?_, ?_, ?_⟩
      · simp only [Run, hneg, if_false]
        rw [h₁]
        simp [RunState.init, launchedKeys_nil]
      · simp only [Run, hneg, if_false]
        rw [h₂]
        simp [RunState.init, invokedKeys_nil]
      · rw [hcalls]
        exact h₄.followed
  · intro page obj rest hset hpar hfuel hcall hcont
    have hneg : ¬ setting.Parallelism < 0 := by omega
    obtain ⟨n, rfl⟩ : ∃ n, fuel = n + 1 := ⟨fuel - 1, by omega⟩
    simp [Run, hneg, runLoop, hcall, hcont, processContents, processObject, hset,
      RunState.init, RunState.log, RunState.incTotal, u64add]

/-- The amended C3 with the signal set before the call: on the listing whose first page is
empty no unit is launched and nothing is invoked, and the first of the two pages requested
holds no object; on the test listing the first page alone is requested. -/
theorem Run_stops_at_fired_poll_witness :
    (launchedKeys (Run demoRuntime 3 alreadyCancelled testSetting emptyFirstPageClient).2 = [] ∧
      invokedKeys (Run demoRuntime 3 alreadyCancelled testSetting emptyFirstPageClient).2 = [] ∧
      ∃ page, emptyFirstPageClient.ListObjectsV2 (listInputOf testSetting none) = .ok page ∧
        page.Contents = []) ∧
      (∀ pre post, (Run demoRuntime 2 alreadyCancelled testSetting testClient).2 =
        pre ++ Event.poll true :: post → post = []) ∧
      Run demoRuntime 2 alreadyCancelled testSetting testClient =
        (.returned { Total := 1, Done := 0, Skipped := 0, Errored := 0, DurationMs := 0 },
          [.list (listInputOf testSetting none), .poll true]) :=
  ⟨⟨((Run_stops_at_fired_poll demoRuntime 3 alreadyCancelled testSetting
        emptyFirstPageClient).2.2.1 (fun _ => rfl)).1,
      ((Run_stops_at_fired_poll demoRuntime 3 alreadyCancelled testSetting
        emptyFirstPageClient).2.2.1 (fun _ => rfl)).2.1,
      ((Run_stops_at_fired_poll demoRuntime 3 alreadyCancelled testSetting
        emptyFirstPageClient).2.2.1 (fun _ => rfl)).2.2 0 (listInputOf testSetting none)
        (listInputOf testSetting (some "next")) (by decide) (by decide)⟩,
    (Run_stops_at_fired_poll demoRuntime 2 alreadyCancelled testSetting testClient).2.1,
    (Run_stops_at_fired_poll demoRuntime 2 alreadyCancelled testSetting testClient).2.2.2
      testPage1 _ _ (fun _ => rfl) (by decide) (by decide) rfl rfl⟩

/-! ## The listing requests -/

theorem runUnit_listCalls (rt : Runtime) (setting : Setting) (client : IAwsClient)
    (cfg : Option Config) (k : Nat) (key : String) (obj : Object) (st : RunState) :
    listCalls (runUnit rt setting client cfg k key obj st).events = listCalls st.events := by
  simp only [runUnit]
  cases hb : buildS3EventPayload rt.marshal (rt.now k) cfg setting.Bucket obj with
  | error e => rfl
  | ok payload =>
    cases hd : setting.DryRun with
    | true => simp [RunState.incDone]
    | false =>
      cases hi : client.Invoke (invokeInputOf setting payload) with
      | error e =>
        simp [hi, RunState.incErrored, RunState.log, listCalls_append, listCalls_cons,
          listCalls_nil, Event.listInput]
      | ok u =>
        simp [hi, RunState.incDone, RunState.addDuration, RunState.log, listCalls_append,
          listCalls_cons, listCalls_nil, Event.listInput]

theorem processObject_listCalls (rt : Runtime) (ctx : Nat → Bool) (setting : Setting)
    (client : IAwsClient) (cfg : Option Config) (st : RunState) (obj : Object) :
    listCalls (processObject rt ctx setting client cfg st obj).2.events =
      listCalls st.events := by
  simp only [processObject]
  have h₁ : ∀ b, listCalls (st.events ++ [Event.poll b]) = listCalls st.events := by
    intro b
    simp [listCalls_append, listCalls_cons, listCalls_nil, Event.listInput]
  cases hc : ctx st.seen with
  | true => simpa [RunState.log, RunState.incTotal] using h₁ true
  | false =>
    cases hk : obj.Key with
    | none => simpa [RunState.log, RunState.incTotal] using h₁ false
    | some key =>
      by_cases hx : extensionRejects setting key = true
      · simpa [hx, RunState.log, RunState.incTotal, RunState.incSkipped] using h₁ false
      · by_cases hmo : modifiedRejects setting obj = true
        · simpa [hx, hmo, RunState.log, RunState.incTotal, RunState.incSkipped] using h₁ false
        · by_cases hg : st.sem < setting.Parallelism.toNat
          · simp only [hx, hmo, Bool.false_eq_true, if_false, RunState.log, RunState.incTotal, hg,
              if_true]
            rw [runUnit_listCalls]
            simp [listCalls_append, listCalls_cons, listCalls_nil, Event.listInput]
          · simpa [hx, hmo, hg, RunState.log, RunState.incTotal] using h₁ false

theorem processContents_listCalls (rt : Runtime) (ctx : Nat → Bool) (setting : Setting)
    (client : IAwsClient) (cfg : Option Config) (objs : List Object) :
    ∀ st : RunState,
      listCalls (processContents rt ctx setting client cfg st objs).2.events =
        listCalls st.events := by
  induction objs with
  | nil =>
    intro st
    rfl
  | cons obj rest ih =>
    intro st
    have h := processObject_listCalls rt ctx setting client cfg st obj
    rcases hp : processObject rt ctx setting client cfg st obj with ⟨flow, st₁⟩
    rw [hp] at h
    simp only at h
    cases flow <;> simp only [processContents, hp, h, ih]

theorem runLoop_listCalls (rt : Runtime) (ctx : Nat → Bool) (setting : Setting)
    (client : IAwsClient) (cfg : Option Config) (fuel : Nat) :
    ∀ (token : Option String) (st : RunState),
      ∃ calls, listCalls (runLoop rt ctx setting client cfg fuel token st).2.events =
          listCalls st.events ++ calls ∧ CallsFrom client setting token calls := by
  induction fuel with
  | zero =>
    intro token st
    exact ⟨[], by simp [runLoop], trivial⟩
  | succ fuel ih =>
    intro token st
    have h₁ : listCalls (st.log (.list (listInputOf setting token))).events =
        listCalls st.events ++ [listInputOf setting token] := by
      simp [RunState.log, listCalls_append, listCalls_cons, listCalls_nil, Event.listInput]
    have hone : CallsFrom client setting token [listInputOf setting token] :=
      ⟨rfl, Or.inl rfl⟩
    simp only [runLoop]
    cases hcall : client.ListObjectsV2 (listInputOf setting token) with
    | error err => exact ⟨_, h₁, hone⟩
    | ok out =>
      simp only []
      have h₂ := processContents_listCalls rt ctx setting client cfg out.Contents
        (st.log (.list (listInputOf setting token)))
      rcases hp : processContents rt ctx setting client cfg
        (st.log (.list (listInputOf setting token))) out.Contents with ⟨flow, st₁⟩
      rw [hp, h₁] at h₂
      simp only at h₂
      cases flow with
      | breakAll => exact ⟨_, h₂, hone⟩
      | panicked => exact ⟨_, h₂, hone⟩
      | blocked => exact ⟨_, h₂, hone⟩
      | next =>
        simp only []
        cases htr : out.IsTruncated with
        | none => exact ⟨_, h₂, hone⟩
        | some t =>
          cases t with
          | false => exact ⟨_, h₂, hone⟩
          | true =>
            obtain ⟨calls, hc, hfrom⟩ := ih out.NextContinuationToken st₁
            refine ⟨listInputOf setting token :: calls, ?_, rfl, Or.inr ⟨out, hcall, hfrom⟩⟩
            simp only []
            rw [hc, h₂]
            simp

theorem CallsFrom.fields {client : IAwsClient} {setting : Setting} :
    ∀ {calls : List ListObjectsV2Input} {token : Option String},
      CallsFrom client setting token calls →
      ∀ call ∈ calls, ∃ t, call = listInputOf setting t := by
  intro calls
  induction calls with
  | nil =>
    intro token _ call hc
    simp at hc
  | cons c rest ih =>
    intro token h call hc
    obtain ⟨h₁, h₂⟩ := h
    rcases List.mem_cons.mp hc with rfl | hc
    · exact ⟨token, h₁⟩
    · rcases h₂ with rfl | ⟨page, _, hfrom⟩
      · simp at hc
      · exact ih hfrom call hc

theorem CallsFrom.consecutive {client : IAwsClient} {setting : Setting} :
    ∀ {calls : List ListObjectsV2Input} {token : Option String},
      CallsFrom client setting token calls →
      ∀ (i : Nat) (c c' : ListObjectsV2Input), calls[i]? = some c → calls[i + 1]? = some c' →
        ∃ page, client.ListObjectsV2 c = .ok page ∧
          c'.ContinuationToken = page.NextContinuationToken := by
  intro calls
  induction calls with
  | nil =>
    intro token _ i c c' hc
    simp at hc
  | cons call rest ih =>
    intro token h i c c' hc hc'
    obtain ⟨h₁, h₂⟩ := h
    rcases h₂ with rfl | ⟨page, hpage, hfrom⟩
    · simp at hc'
    · cases i with
      | zero =>
        simp only [List.getElem?_cons_zero, Option.some.injEq] at hc
        simp only [Nat.zero_add, List.getElem?_cons_succ] at hc'
        subst hc
        refine ⟨page, hpage, ?_⟩
        cases rest with
        | nil => simp at hc'
        | cons r rest' =>
          simp only [List.getElem?_cons_zero, Option.some.injEq] at hc'
          subst hc'
          rw [hfrom.1]
          rfl
      | succ j =>
        simp only [List.getElem?_cons_succ] at hc hc'
        exact ih hfrom j c c' hc hc'

/-- C8 as stated fails: in the run over the two-page test listing the second listing request
carries the start-after key of the setting as well, next to the continuation token. -/
theorem Run_sends_start_after_with_every_request :
    (listCalls (Run demoRuntime 2 neverCancelled testSetting testClient).2).map
        (fun call => (call.StartAfter, call.ContinuationToken)) =
      [(some "my-prefix/0.jpg", none),
        (some "my-prefix/0.jpg", some "my-continuation-token")] := by
  decide

/-- C8, amended. In every run, every listing request carries the bucket, the prefix and the
start-after key of the setting and asks for pages of 1000 keys; the first request carries no
continuation token, and every later request carries the continuation token returned by the
page before it. -/
theorem Run_listing_requests (rt : Runtime) (fuel : Nat) (ctx : Nat → Bool)
    (setting : Setting) (client : IAwsClient) :
    (∀ call ∈ listCalls (Run rt fuel ctx setting client).2,
      call.Bucket = some setting.Bucket ∧ call.Prefix = some setting.Prefix ∧
        call.StartAfter = some setting.StartAfter ∧ call.MaxKeys = some 1000) ∧
    (∀ call, (listCalls (Run rt fuel ctx setting client).2).head? = some call →
      call.ContinuationToken = none) ∧
    (∀ (i : Nat) (call next : ListObjectsV2Input),
      (listCalls (Run rt fuel ctx setting client).2)[i]? = some call →
      (listCalls (Run rt fuel ctx setting client).2)[i + 1]? = some next →
      ∃ page, client.ListObjectsV2 call = .ok page ∧
        next.ContinuationToken = page.NextContinuationToken) := by
  by_cases hneg : setting.Parallelism < 0
  · simp [Run, hneg, listCalls_nil]
  · obtain ⟨calls, hcalls, hfrom⟩ := runLoop_listCalls rt ctx setting client client.GetConfig
      fuel none RunState.init
    have hrun : listCalls (Run rt fuel ctx setting client).2 = calls := by
      simp only [Run, hneg, if_false]
      rw [hcalls]
      simp [RunState.init, listCalls_nil]
    rw [hrun]
    refine ⟨?_, ?_, ?_⟩
    · intro call hc
      obtain ⟨t, rfl⟩ := hfrom.fields call hc
      exact ⟨rfl, rfl, rfl, rfl⟩
    · intro call hc
      cases calls with
      | nil => simp at hc
      | cons c rest =>
        simp only [List.head?_cons, Option.some.injEq] at hc
        subst hc
        rw [hfrom.1]
        rfl
    · exact hfrom.consecutive

/-- The amended C8 on the two-page test listing. -/
theorem Run_listing_requests_witness :
    listCalls (Run demoRuntime 2 neverCancelled testSetting testClient).2 =
        [listInputOf testSetting none, listInputOf testSetting (some "my-continuation-token")] ∧
      ∃ page, testClient.ListObjectsV2 (listInputOf testSetting none) = .ok page ∧
        (listInputOf testSetting (some "my-continuation-token")).ContinuationToken =
          page.NextContinuationToken :=
  ⟨by decide,
    (Run_listing_requests demoRuntime 2 neverCancelled testSetting testClient).2.2 0
      (listInputOf testSetting none) (listInputOf testSetting (some "my-continuation-token"))
      (by decide) (by decide)⟩

/-! ## The gate -/

theorem countP_set {α : Type} (p : α → Bool) (l : List α) (i : Nat) (a b : α)
    (h : l[i]? = some a) :
    (l.set i b).countP p + (if p a then 1 else 0) = l.countP p + (if p b then 1 else 0) := by
  induction l generalizing i with
  | nil => simp at h
  | cons x xs ih =>
    cases i with
    | zero =>
      simp only [List.getElem?_cons_zero, Option.some.injEq] at h
      subst h
      simp only [List.set_cons_zero, List.countP_cons]
      omega
    | succ j =>
      simp only [List.getElem?_cons_succ] at h
      simp only [List.set_cons_succ, List.countP_cons]
      have := ih j h
      omega

theorem unitAct_frame (s s' : Dispatch) (pc pc' : UnitPc) (h : unitAct s pc = some (pc', s')) :
    s'.units = s.units ∧ s'.cap = s.cap ∧ s'.coord = s.coord ∧
      ((pc.holdsSlot = true ∧ pc'.holdsSlot = false ∧ 0 < s.sem ∧ s'.sem = s.sem - 1) ∨
        (pc'.holdsSlot = pc.holdsSlot ∧ s'.sem = s.sem)) := by
  cases pc with
  | start kind =>
    cases kind <;> simp only [unitAct, Option.some.injEq, Prod.mk.injEq] at h <;>
      obtain ⟨rfl, rfl⟩ := h <;> simp [UnitPc.holdsSlot]
  | invoking result =>
    cases result <;> simp only [unitAct, Option.some.injEq, Prod.mk.injEq] at h <;>
      obtain ⟨rfl, rfl⟩ := h <;> simp [UnitPc.holdsSlot]
  | doneRead v ms =>
    cases ms <;> simp only [unitAct, Option.some.injEq, Prod.mk.injEq] at h <;>
      obtain ⟨rfl, rfl⟩ := h <;> simp [UnitPc.holdsSlot]
  | doneWritten ms =>
    simp only [unitAct, Option.some.injEq, Prod.mk.injEq] at h
    obtain ⟨rfl, rfl⟩ := h
    simp [UnitPc.holdsSlot]
  | durationRead v ms =>
    simp only [unitAct, Option.some.injEq, Prod.mk.injEq] at h
    obtain ⟨rfl, rfl⟩ := h
    simp [UnitPc.holdsSlot]
  | erroredRead v =>
    simp only [unitAct, Option.some.injEq, Prod.mk.injEq] at h
    obtain ⟨rfl, rfl⟩ := h
    simp [UnitPc.holdsSlot]
  | exiting =>
    simp only [unitAct] at h
    split at h
    · rename_i hpos
      simp only [Option.some.injEq, Prod.mk.injEq] at h
      obtain ⟨rfl, rfl⟩ := h
      simp [UnitPc.holdsSlot, hpos]
    · simp at h
  | released =>
    simp only [unitAct, Option.some.injEq, Prod.mk.injEq] at h
    obtain ⟨rfl, rfl⟩ := h
    simp [UnitPc.holdsSlot]
  | finished => simp [unitAct] at h

theorem gateInv_at_start (cap : Nat) (pending : List UnitKind) :
    GateInv (Dispatch.init cap pending) := by
  simp [GateInv, Dispatch.init, Dispatch.inFlight, CoordPc.slots]

theorem coordStep_inv (s s' : Dispatch) (h : coordStep s = some s') (hi : GateInv s) :
    GateInv s' ∧ s'.cap = s.cap := by
  obtain ⟨h₁, h₂⟩ := hi
  unfold coordStep at h
  cases hc : s.coord with
  | idle =>
    rw [hc] at h h₁
    simp only at h
    cases hp : s.pending with
    | nil =>
      rw [hp] at h
      simp only at h
      split at h
      · simp only [Option.some.injEq] at h
        subst h
        exact ⟨⟨by simpa [Dispatch.inFlight, CoordPc.slots] using h₁, h₂⟩, rfl⟩
      · simp at h
    | cons kind rest =>
      rw [hp] at h
      simp only [Option.some.injEq] at h
      subst h
      exact ⟨⟨by simpa [Dispatch.inFlight, CoordPc.slots] using h₁, h₂⟩, rfl⟩
  | sending kind =>
    rw [hc] at h h₁
    simp only at h
    split at h
    · rename_i hlt
      simp only [Option.some.injEq] at h
      subst h
      refine ⟨⟨?_, ?_⟩, rfl⟩
      · simp only [Dispatch.inFlight, CoordPc.slots] at h₁ ⊢
        omega
      · exact hlt
    · simp at h
  | going kind =>
    rw [hc] at h h₁
    simp only [Option.some.injEq] at h
    subst h
    refine ⟨⟨?_, h₂⟩, rfl⟩
    simp only [Dispatch.inFlight, CoordPc.slots, List.countP_append, List.countP_cons,
      List.countP_nil, UnitPc.holdsSlot] at h₁ ⊢
    simpa using h₁
  | returned =>
    rw [hc] at h
    simp at h

theorem unitStep_inv (s s' : Dispatch) (i : Nat) (h : unitStep s i = some s')
    (hi : GateInv s) : GateInv s' ∧ s'.cap = s.cap := by
  obtain ⟨h₁, h₂⟩ := hi
  unfold unitStep at h
  cases hu : s.units[i]? with
  | none =>
    rw [hu] at h
    simp at h
  | some pc =>
    rw [hu] at h
    simp only at h
    cases ha : unitAct s pc with
    | none =>
      rw [ha] at h
      simp at h
    | some r =>
      obtain ⟨pc', t⟩ := r
      rw [ha] at h
      simp only [Option.some.injEq] at h
      subst h
      obtain ⟨hunits, hcap, hcoord, hslot⟩ := unitAct_frame s t pc pc' ha
      have hcount := countP_set UnitPc.holdsSlot s.units i pc pc' hu
      refine ⟨⟨?_, ?_⟩, hcap⟩
      · simp only [Dispatch.inFlight, hunits, hcoord] at h₁ ⊢
        rcases hslot with ⟨ha₁, ha₂, hpos, hsem⟩ | ⟨ha₁, hsem⟩
        · simp only [ha₁, ha₂, if_true, Bool.false_eq_true, if_false] at hcount
          omega
        · simp only [ha₁] at hcount
          omega
      · simp only [hcap]
        rcases hslot with ⟨_, _, _, hsem⟩ | ⟨_, hsem⟩ <;> simp only [hsem] <;> omega

theorem exec_inv (schedule : List Nat) :
    ∀ (s s' : Dispatch), s.exec schedule = some s' → GateInv s → GateInv s' ∧ s'.cap = s.cap := by
  induction schedule with
  | nil =>
    intro s s' h hi
    simp only [Dispatch.exec, Option.some.injEq] at h
    subst h
    exact ⟨hi, rfl⟩
  | cons c rest ih =>
    intro s s' h hi
    simp only [Dispatch.exec] at h
    cases hs : s.step c with
    | none =>
      rw [hs] at h
      simp at h
    | some t =>
      rw [hs] at h
      simp only at h
      have ht : GateInv t ∧ t.cap = s.cap := by
        cases c with
        | zero => exact coordStep_inv s t hs hi
        | succ i => exact unitStep_inv s t i hs hi
      obtain ⟨hi', hc'⟩ := ih t s' h ht.1
      exact ⟨hi', hc'.trans ht.2⟩

theorem invoking_le_inFlight (s : Dispatch) : s.invoking ≤ s.inFlight := by
  unfold Dispatch.invoking Dispatch.inFlight
  apply List.countP_mono_left
  intro pc _ h
  cases pc <;> simp_all [UnitPc.isInvoking, UnitPc.holdsSlot]

/-- C2. For a gate of capacity `Parallelism = n` with `n` at least 1 and every interleaving of
the coordinator and the units, the number of units launched that have not yet given their slot
back is at most `n`, and so is the number of calls of the invocation capability in progress. -/
theorem Dispatch_gate_bound (setting : Setting) (pending : List UnitKind)
    (schedule : List Nat) (s : Dispatch) (hpar : 1 ≤ setting.Parallelism)
    (h : (Dispatch.init setting.Parallelism.toNat pending).exec schedule = some s) :
    (s.inFlight : Int) ≤ setting.Parallelism ∧ (s.invoking : Int) ≤ setting.Parallelism := by
  obtain ⟨⟨h₁, h₂⟩, hcap⟩ := exec_inv schedule _ s h (gateInv_at_start _ pending)
  have h₃ := invoking_le_inFlight s
  simp only [Dispatch.init] at hcap
  omega

/-- C2 on the test listing with a gate of capacity two: after two launches the gate is full,
two units are in flight and the coordinator cannot pass the send. -/
theorem Dispatch_gate_bound_witness :
    (Dispatch.ofRun demoRuntime twoSlotsSetting testClient [testPage1, testPage2]).exec
        (stepsOf 0 7) = some gateFull ∧
      gateFull.inFlight = 2 ∧ gateFull.step 0 = none ∧
      (gateFull.inFlight : Int) ≤ twoSlotsSetting.Parallelism ∧
      (gateFull.invoking : Int) ≤ twoSlotsSetting.Parallelism :=
  ⟨by decide, by decide, by decide,
    Dispatch_gate_bound twoSlotsSetting
      (Dispatch.ofRun demoRuntime twoSlotsSetting testClient [testPage1, testPage2]).pending
      (stepsOf 0 7) gateFull (by decide) (by decide)⟩

/-! ## The counters under interleaving -/

/-- C10 at the failing input. On the test listing and setting, with the four units launched,
the schedule in which the first two units both read `summary.Done` before either writes it ends,
every unit finished and `Run` past `wg.Wait()`, with Done = 2 and Errored = 1 for four units
launched: one update of Done is lost. The schedule in which the units run one after the other
ends with Done = 3 and Errored = 1. -/
theorem Dispatch_overlapping_increments_lose_an_update :
    ((Dispatch.ofRun demoRuntime testSetting testClient [testPage1, testPage2]).exec
        overlappingSchedule).map
        (fun s => (s.completed, s.units.length, s.Done, s.Errored)) = some (true, 4, 2, 1) ∧
      ((Dispatch.ofRun demoRuntime testSetting testClient [testPage1, testPage2]).exec
        inOrderSchedule).map
        (fun s => (s.completed, s.units.length, s.Done, s.Errored)) = some (true, 4, 3, 1) := by
  constructor <;> decide

/-- C1 at the failing input. On the listing and setting of `TestNormalSituation` (DryRun off,
Parallelism 100, no cancellation), six objects are listed, two are rejected, and of the four
accepted ones three have an invocation that succeeds and one an invocation that fails. Under
the schedule in which the three successful units all read `summary.Done` before any of them
writes it, the run ends, every unit finished and `Run` past `wg.Wait()`, with Done = 1 and
Errored = 1: Done is not the number of successful invocations, and Total = 6 is not
Done + Skipped + Errored = 1 + 2 + 1. -/
theorem Run_test_listing_done_below_successes :
    ((Dispatch.ofRun demoRuntime testSetting testClient [testPage1, testPage2]).exec
        tripleOverlapSchedule).map
        (fun s => (s.completed, s.units.length, s.Done, s.Errored)) = some (true, 4, 1, 1) ∧
      (allObjects [testPage1, testPage2]).length = 6 ∧
      ((allObjects [testPage1, testPage2]).filter (rejected testSetting)).length = 2 ∧
      ((allObjects [testPage1, testPage2]).enum.filter (fun p =>
        accepted testSetting p.2 && invokeSucceeds demoRuntime testSetting testClient p)).length
        = 3 ∧
      ((allObjects [testPage1, testPage2]).enum.filter (fun p =>
        accepted testSetting p.2 && !invokeSucceeds demoRuntime testSetting testClient p)).length
        = 1 := by
  refine ⟨by decide, by decide, by decide, by decide, by decide⟩

/-- C7 at the failing input. On the test listing with DryRun on and Parallelism 100, four
objects pass both filter rules and a unit is launched for each. Under the schedule in which the
first two units both read `summary.Done` before either writes it, the run ends, every unit
finished and `Run` past `wg.Wait()`, with no call of the invocation capability, Errored = 0,
DurationMs = 0 and Done = 3: Done is below the number of objects that pass the filter. -/
theorem Run_dry_run_done_below_accepted :
    (Dispatch.ofRun demoRuntime dryRunSetting testClient [testPage1, testPage2]).pending =
        [.dryRun, .dryRun, .dryRun, .dryRun] ∧
      ((Dispatch.ofRun demoRuntime dryRunSetting testClient [testPage1, testPage2]).exec
        dryRunOverlapSchedule).map
        (fun s => (s.completed, s.units.length, s.Done, s.Errored, s.DurationMs)) =
        some (true, 4, 3, 0, 0) ∧
      ((allObjects [testPage1, testPage2]).filter (accepted dryRunSetting)).length = 4 := by
  refine ⟨by decide, by decide, by decide⟩

/-! ## The event payload -/

theorem decodeIds_tagged_key (key : List Char) (rest : List Char)
    (ids : List (List Char × List Char)) (h : decodeIds rest = some ids) :
    decodeIds (tagChars 'k' key ++ 'r' :: rest) = some (([], key) :: ids) := by
  induction key with
  | nil =>
    simp only [tagChars, List.nil_append]
    cases rest with
    | nil =>
      simp only [decodeIds, Option.some.injEq] at h
      subst h
      simp [decodeIds]
    | cons c rest => simp [decodeIds, h]
  | cons c key ih =>
    simp only [tagChars, List.cons_append]
    rw [decodeIds]
    simp [ih]

theorem decodeIds_tagged_bucket (bucket key : List Char) (text : List Char)
    (ids : List (List Char × List Char)) (h : decodeIds text = some (([], key) :: ids)) :
    decodeIds (tagChars 'b' bucket ++ text) = some ((bucket, key) :: ids) := by
  induction bucket with
  | nil => simpa [tagChars] using h
  | cons c bucket ih =>
    simp only [tagChars, List.cons_append]
    rw [decodeIds]
    simp [ih]

theorem decodeIds_encodeIds (ids : List (List Char × List Char)) :
    decodeIds (encodeIds ids) = some ids := by
  induction ids with
  | nil => rfl
  | cons id rest ih =>
    obtain ⟨bucket, key⟩ := id
    simp only [encodeIds]
    exact decodeIds_tagged_bucket bucket key _ rest (decodeIds_tagged_key key _ rest ih)

/-- The codec of the examples gives back the bucket name and the object key of every record. -/
theorem demo_codec_keeps_ids (event : S3Event) (payload : String)
    (h : demoMarshal event = .ok payload) :
    ∃ parsed, demoUnmarshal payload = .ok parsed ∧
      parsed.Records.map recordId = event.Records.map recordId := by
  simp only [demoMarshal, Except.ok.injEq] at h
  subst h
  simp [demoUnmarshal, decodeIds_encodeIds, recordId, recordOfId, Function.comp_def]

/-- The event that `buildS3EventPayload` encodes: the function returns what the JSON encoder
returns for an S3 event with exactly one record, whose bucket name is the bucket supplied, whose
bucket ARN is `arn:aws:s3:::` followed by it, whose object key is the key of the object (empty
when the object has none), whose region is that of the configuration, or `us-east-1` without
one, whose event name is `ObjectCreated:Put` and whose event time is the reading of the clock. -/
theorem buildS3EventPayload_event (marshal : S3Event → Except String String) (now : Time)
    (cfg : Option Config) (bucket : String) (obj : Object) :
    ∃ record, buildS3EventPayload marshal now cfg bucket obj = marshal { Records := [record] } ∧
      record.S3.Bucket.Name = bucket ∧ record.S3.Bucket.Arn = "arn:aws:s3:::" ++ bucket ∧
      record.S3.Object.Key = keyOf obj ∧
      record.AWSRegion = (match cfg with
        | some c => c.Region
        | none => "us-east-1") ∧
      record.EventName = "ObjectCreated:Put" ∧ record.EventTime = now := by
  refine ⟨_, rfl, rfl, rfl, ?_, rfl, rfl, rfl⟩
  simp only [keyOf]

/-! ## The run-to-completion schedule of the dispatcher gives the summary of `Run` -/

theorem exec_append (a b : List Nat) :
    ∀ s : Dispatch, s.exec (a ++ b) = (s.exec a).bind (fun t => t.exec b) := by
  induction a with
  | nil =>
    intro s
    rfl
  | cons c rest ih =>
    intro s
    simp only [List.cons_append, Dispatch.exec]
    cases s.step c with
    | none => rfl
    | some t => exact ih t

theorem getElem?_replicate_append (i : Nat) (a x : UnitPc) :
    (List.replicate i a ++ [x])[i]? = some x := by
  rw [List.getElem?_append_right (by simp)]
  simp

theorem set_replicate_append (i : Nat) (a x y : UnitPc) :
    (List.replicate i a ++ [x]).set i y = List.replicate i a ++ [y] := by
  rw [List.set_append_right _ _ (by simp)]
  simp

theorem exec_one_unit (cap i : Nat) (kind : UnitKind) (rest : List UnitKind) (d e m : Nat)
    (hcap : 1 ≤ cap) :
    (Dispatch.between cap i (kind :: rest) d e m).exec
        (stepsOf 0 3 ++ stepsOf (i + 1) kind.steps) =
      some (Dispatch.between cap (i + 1) rest (kind.doneAfter d) (kind.erroredAfter e)
        (kind.durationAfter m)) := by
  have hpos : 0 < cap := hcap
  cases kind <;>
    simp [stepsOf, List.replicate, Dispatch.exec, Dispatch.step, coordStep, unitStep, unitAct,
      Dispatch.between, UnitKind.steps, UnitKind.doneAfter, UnitKind.erroredAfter,
      UnitKind.durationAfter, getElem?_replicate_append, set_replicate_append, hpos] <;>
    exact (List.replicate_succ' i UnitPc.finished).symm

theorem exec_inOrderFrom (cap : Nat) (hcap : 1 ≤ cap) (kinds : List UnitKind) :
    ∀ (i d e m : Nat),
      (Dispatch.between cap i kinds d e m).exec (inOrderFrom i kinds) =
        some (Dispatch.between cap (i + kinds.length) []
          (kinds.foldl UnitKind.doneAfter d) (kinds.foldl UnitKind.erroredAfter e)
          (kinds.foldl UnitKind.durationAfter m)) := by
  induction kinds with
  | nil =>
    intro i d e m
    rfl
  | cons kind rest ih =>
    intro i d e m
    simp only [inOrderFrom]
    rw [← List.append_assoc, exec_append, exec_one_unit cap i kind rest d e m hcap]
    simp only [Option.bind_eq_bind, Option.some_bind, ih, List.foldl_cons, List.length_cons]
    congr 2
    omega

theorem exec_inOrder (cap : Nat) (hcap : 1 ≤ cap) (kinds : List UnitKind) :
    (Dispatch.init cap kinds).exec (inOrder kinds) =
      some { Dispatch.between cap kinds.length []
          (kinds.foldl UnitKind.doneAfter 0) (kinds.foldl UnitKind.erroredAfter 0)
          (kinds.foldl UnitKind.durationAfter 0) with coord := .returned } := by
  have h := exec_inOrderFrom cap hcap kinds 0 0 0 0
  have hinit : Dispatch.init cap kinds = Dispatch.between cap 0 kinds 0 0 0 := rfl
  rw [inOrder, exec_append, hinit, h]
  simp [Dispatch.exec, Dispatch.step, coordStep, Dispatch.between]

theorem unitKindOf_effect (rt : Runtime) (setting : Setting) (client : IAwsClient)
    (hm : ∀ e, ∃ b, rt.marshal e = .ok b) (p : Nat × Object)
    (hacc : accepted setting p.2 = true) (d e m : Nat) :
    (unitKindOf rt setting client p).doneAfter d =
        (if countsDone rt setting client p then u64add d 1 else d) ∧
      (unitKindOf rt setting client p).erroredAfter e =
        (if countsErrored rt setting client p then u64add e 1 else e) ∧
      (unitKindOf rt setting client p).durationAfter m =
        (if isInvoked setting p && invokeSucceeds rt setting client p then
          u64add m (rt.elapsedMs p.1) else m) := by
  obtain ⟨b, hb⟩ := hm (buildS3Event (rt.now p.1) client.GetConfig setting.Bucket p.2)
  cases hd : setting.DryRun with
  | true =>
    simp [unitKindOf, countsDone, countsErrored, isInvoked, buildS3EventPayload, hb, hd, hacc,
      UnitKind.doneAfter, UnitKind.erroredAfter, UnitKind.durationAfter]
  | false =>
    cases hi : client.Invoke (invokeInputOf setting b) with
    | error err =>
      simp [unitKindOf, countsDone, countsErrored, isInvoked, invokeSucceeds,
        buildS3EventPayload, hb, hd, hi, hacc, UnitKind.doneAfter, UnitKind.erroredAfter,
        UnitKind.durationAfter]
    | ok u =>
      simp [unitKindOf, countsDone, countsErrored, isInvoked, invokeSucceeds,
        buildS3EventPayload, hb, hd, hi, hacc, UnitKind.doneAfter, UnitKind.erroredAfter,
        UnitKind.durationAfter]

theorem foldl_doneAfter (rt : Runtime) (setting : Setting) (client : IAwsClient)
    (hm : ∀ e, ∃ b, rt.marshal e = .ok b) (objs : List (Nat × Object)) :
    ∀ (d c : Nat),
      ((objs.filter (fun p => accepted setting p.2)).map (unitKindOf rt setting client)).foldl
          UnitKind.doneAfter (u64add d c) =
        u64add d (c + objs.countP (countsDone rt setting client)) := by
  induction objs with
  | nil =>
    intro d c
    simp
  | cons p rest ih =>
    intro d c
    rcases Bool.eq_false_or_eq_true (accepted setting p.2) with hacc | hacc
    · have h := (unitKindOf_effect rt setting client hm p hacc (u64add d c) 0 0).1
      simp only [List.filter_cons, hacc, if_true, List.map_cons, List.foldl_cons, h,
        List.countP_cons]
      rcases Bool.eq_false_or_eq_true (countsDone rt setting client p) with hd | hd
      · simp only [hd, if_true, u64add_u64add]
        rw [ih d (c + 1)]
        congr 1
        omega
      · simp only [hd, Bool.false_eq_true, if_false, Nat.add_zero]
        exact ih d c
    · have hd : countsDone rt setting client p = false := by simp [countsDone, hacc]
      simp only [List.filter_cons, hacc, Bool.false_eq_true, if_false, List.countP_cons, hd,
        Nat.add_zero]
      exact ih d c

theorem foldl_erroredAfter (rt : Runtime) (setting : Setting) (client : IAwsClient)
    (hm : ∀ e, ∃ b, rt.marshal e = .ok b) (objs : List (Nat × Object)) :
    ∀ (e c : Nat),
      ((objs.filter (fun p => accepted setting p.2)).map (unitKindOf rt setting client)).foldl
          UnitKind.erroredAfter (u64add e c) =
        u64add e (c + objs.countP (countsErrored rt setting client)) := by
  induction objs with
  | nil =>
    intro e c
    simp
  | cons p rest ih =>
    intro e c
    rcases Bool.eq_false_or_eq_true (accepted setting p.2) with hacc | hacc
    · have h := (unitKindOf_effect rt setting client hm p hacc 0 (u64add e c) 0).2.1
      simp only [List.filter_cons, hacc, if_true, List.map_cons, List.foldl_cons, h,
        List.countP_cons]
      rcases Bool.eq_false_or_eq_true (countsErrored rt setting client p) with he | he
      · simp only [he, if_true, u64add_u64add]
        rw [ih e (c + 1)]
        congr 1
        omega
      · simp only [he, Bool.false_eq_true, if_false, Nat.add_zero]
        exact ih e c
    · have he : countsErrored rt setting client p = false := by simp [countsErrored, hacc]
      simp only [List.filter_cons, hacc, Bool.false_eq_true, if_false, List.countP_cons, he,
        Nat.add_zero]
      exact ih e c

theorem foldl_durationAfter (rt : Runtime) (setting : Setting) (client : IAwsClient)
    (hm : ∀ e, ∃ b, rt.marshal e = .ok b) (objs : List (Nat × Object)) :
    ∀ (m c : Nat),
      ((objs.filter (fun p => accepted setting p.2)).map (unitKindOf rt setting client)).foldl
          UnitKind.durationAfter (u64add m c) =
        u64add m (c + (objs.map (durationOf rt setting client)).sum) := by
  induction objs with
  | nil =>
    intro m c
    simp
  | cons p rest ih =>
    intro m c
    rcases Bool.eq_false_or_eq_true (accepted setting p.2) with hacc | hacc
    · have h := (unitKindOf_effect rt setting client hm p hacc 0 0 (u64add m c)).2.2
      simp only [List.filter_cons, hacc, if_true, List.map_cons, List.foldl_cons, h,
        List.sum_cons, durationOf]
      rcases Bool.eq_false_or_eq_true
        (isInvoked setting p && invokeSucceeds rt setting client p) with hu | hu
      · simp only [hu, if_true, u64add_u64add]
        rw [ih m (c + rt.elapsedMs p.1)]
        congr 1
        omega
      · simp only [hu, Bool.false_eq_true, if_false, Nat.zero_add]
        exact ih m c
    · have hu : durationOf rt setting client p = 0 := by simp [durationOf, isInvoked, hacc]
      simp only [List.filter_cons, hacc, Bool.false_eq_true, if_false, List.map_cons,
        List.sum_cons, hu, Nat.zero_add]
      exact ih m c

/-- The summary of `Run` is an outcome of the dispatcher. For a listing that ends at its first
page that is not truncated, a gate of capacity at least 1 and no cancellation, the dispatcher
of the run, under the schedule in which every unit runs from its launch to its end before the
next unit is launched, ends with `Run` past `wg.Wait()`, every unit finished, and the counters
Done, Errored and DurationMs of the summary that `Run` returns. -/
theorem Run_summary_is_in_order_outcome (rt : Runtime) (fuel : Nat) (ctx : Nat → Bool)
    (setting : Setting) (client : IAwsClient) (pages : List ListObjectsV2Output)
    (hpar : 1 ≤ setting.Parallelism)
    (hlist : Listing client setting none pages)
    (hkeys : ∀ o ∈ allObjects pages, o.Key ≠ none)
    (hctx : ∀ k, ctx k = false)
    (hm : ∀ e, ∃ b, rt.marshal e = .ok b)
    (hfuel : pages.length ≤ fuel) :
    ∃ s d, (Run rt fuel ctx setting client).1 = .returned s ∧
      (Dispatch.ofRun rt setting client pages).exec
        (inOrder (Dispatch.ofRun rt setting client pages).pending) = some d ∧
      d.completed = true ∧ d.Done = s.Done ∧ d.Errored = s.Errored ∧
      d.DurationMs = s.DurationMs := by
  obtain ⟨st, hrun, ht⟩ := runLoop_tallied rt ctx setting client RunState.init hpar hctx hm rfl
    pages fuel none RunState.init [] hlist hkeys hfuel (tallied_at_start rt setting client)
  have hnot : ¬ setting.Parallelism < 0 := by omega
  have hcap : 1 ≤ setting.Parallelism.toNat := by omega
  have h₁ := foldl_doneAfter rt setting client hm (List.enumFrom 0 (allObjects pages)) 0 0
  have h₂ := foldl_erroredAfter rt setting client hm (List.enumFrom 0 (allObjects pages)) 0 0
  have h₃ := foldl_durationAfter rt setting client hm (List.enumFrom 0 (allObjects pages)) 0 0
  have hz : u64add 0 0 = 0 := rfl
  rw [hz] at h₁ h₂ h₃
  have hdone := ht.done
  have herrored := ht.errored
  have hduration := ht.duration
  simp only [RunState.init, List.nil_append, Nat.zero_add] at hdone herrored hduration h₁ h₂ h₃
  refine ⟨st.summary, _, ?_, exec_inOrder _ hcap _, ?_, ?_, ?_, ?_⟩
  · simp only [Run, hnot, if_false, hrun]
  · simp [Dispatch.completed, Dispatch.between]
  · rw [hdone]
    exact h₁
  · rw [herrored]
    exact h₂
  · rw [hduration]
    exact h₃

/-- The test listing: the in-order schedule of the dispatcher ends with the counters of the
summary of `Run`. -/
theorem Run_summary_is_in_order_outcome_witness :
    ∃ s d, (Run demoRuntime 2 neverCancelled testSetting testClient).1 = .returned s ∧
      (Dispatch.ofRun demoRuntime testSetting testClient [testPage1, testPage2]).exec
        (inOrder (Dispatch.ofRun demoRuntime testSetting testClient
          [testPage1, testPage2]).pending) = some d ∧
      d.completed = true ∧ d.Done = s.Done ∧ d.Errored = s.Errored ∧
      d.DurationMs = s.DurationMs :=
  Run_summary_is_in_order_outcome demoRuntime 2 neverCancelled testSetting testClient
    [testPage1, testPage2] (by decide) ⟨rfl, rfl, rfl, rfl⟩ (by decide) (fun _ => rfl)
    (fun _ => ⟨_, rfl⟩) (by decide)

/-! ## Listing failure -/

/-- When the first listing call fails, `Run` returns the error, wrapped, and no summary, and
makes no invocation. -/
theorem Run_first_listing_fails (rt : Runtime) (fuel : Nat) (ctx : Nat → Bool)
    (setting : Setting) (client : IAwsClient) (err : String)
    (hpar : 0 ≤ setting.Parallelism) (hfuel : 0 < fuel)
    (hcall : client.ListObjectsV2 (listInputOf setting none) = .error err) :
    Run rt fuel ctx setting client =
      (.failed ("failed to list objects: " ++ err), [.list (listInputOf setting none)]) := by
  have hneg : ¬ setting.Parallelism < 0 := by omega
  obtain ⟨n, rfl⟩ : ∃ n, fuel = n + 1 := ⟨fuel - 1, by omega⟩
  simp [Run, hneg, runLoop, hcall, RunState.init, RunState.log]

/-- The test setting against a client whose listing capability fails. -/
theorem Run_first_listing_fails_witness :
    Run demoRuntime 1 neverCancelled testSetting failingListClient =
      (.failed "failed to list objects: access denied", [.list (listInputOf testSetting none)]) :=
  Run_first_listing_fails demoRuntime 1 neverCancelled testSetting failingListClient
    "access denied" (by decide) (by decide) rfl

/-! ## A gate of capacity one -/

theorem activeOk_holdsSlot {d e m D E M : Nat} {kind : UnitKind} {pc : UnitPc}
    (h : ActiveOk d e m D E M kind pc) : pc.holdsSlot = true := by
  cases h <;> rfl

theorem activeOk_step (d e m : Nat) (s s' : Dispatch) (kind : UnitKind) (pc pc' : UnitPc)
    (h : ActiveOk d e m s.Done s.Errored s.DurationMs kind pc)
    (ha : unitAct s pc = some (pc', s')) :
    (pc' = .released ∧ s'.Done = kind.doneAfter d ∧ s'.Errored = kind.erroredAfter e ∧
        s'.DurationMs = kind.durationAfter m) ∨
      ActiveOk d e m s'.Done s'.Errored s'.DurationMs kind pc' := by
  cases h with
  | start k h₁ h₂ h₃ =>
    cases kind <;> simp only [unitAct, Option.some.injEq, Prod.mk.injEq] at ha <;>
      obtain ⟨rfl, rfl⟩ := ha <;> right
    · exact .exiting _ h₁ h₂ h₃
    · rw [h₁]
      exact .dryRead rfl h₂ h₃
    · exact .failing h₁ h₂ h₃
    · exact .calling _ h₁ h₂ h₃
  | failing h₁ h₂ h₃ =>
    simp only [unitAct, Option.some.injEq, Prod.mk.injEq] at ha
    obtain ⟨rfl, rfl⟩ := ha
    right
    rw [h₂]
    exact .failRead h₁ rfl h₃
  | calling ms h₁ h₂ h₃ =>
    simp only [unitAct, Option.some.injEq, Prod.mk.injEq] at ha
    obtain ⟨rfl, rfl⟩ := ha
    right
    rw [h₁]
    exact .okRead ms rfl h₂ h₃
  | dryRead h₁ h₂ h₃ =>
    simp only [unitAct, Option.some.injEq, Prod.mk.injEq] at ha
    obtain ⟨rfl, rfl⟩ := ha
    right
    exact .exiting _ rfl h₂ h₃
  | okRead ms h₁ h₂ h₃ =>
    simp only [unitAct, Option.some.injEq, Prod.mk.injEq] at ha
    obtain ⟨rfl, rfl⟩ := ha
    right
    exact .okWritten ms rfl h₂ h₃
  | okWritten ms h₁ h₂ h₃ =>
    simp only [unitAct, Option.some.injEq, Prod.mk.injEq] at ha
    obtain ⟨rfl, rfl⟩ := ha
    right
    rw [h₃]
    exact .okDurationRead ms h₁ h₂ rfl
  | okDurationRead ms h₁ h₂ h₃ =>
    simp only [unitAct, Option.some.injEq, Prod.mk.injEq] at ha
    obtain ⟨rfl, rfl⟩ := ha
    right
    exact .exiting _ h₁ h₂ rfl
  | failRead h₁ h₂ h₃ =>
    simp only [unitAct, Option.some.injEq, Prod.mk.injEq] at ha
    obtain ⟨rfl, rfl⟩ := ha
    right
    exact .exiting _ h₁ rfl h₃
  | exiting k h₁ h₂ h₃ =>
    simp only [unitAct] at ha
    split at ha
    · simp only [Option.some.injEq, Prod.mk.injEq] at ha
      obtain ⟨rfl, rfl⟩ := ha
      left
      exact ⟨rfl, h₁, h₂, h₃⟩
    · simp at ha

theorem unitAct_rest (s s' : Dispatch) (pc pc' : UnitPc) (h : unitAct s pc = some (pc', s')) :
    s'.units = s.units ∧ s'.cap = s.cap ∧ s'.coord = s.coord ∧ s'.pending = s.pending ∧
      s'.sem = (if pc' = .released then s.sem - 1 else s.sem) ∧
      (pc' = .released → 0 < s.sem) ∧
      (pc = .released → s'.Done = s.Done ∧ s'.Errored = s.Errored ∧
        s'.DurationMs = s.DurationMs) ∧
      (pc = .released ∨ pc = .finished → pc' = .finished) := by
  cases pc with
  | start kind =>
    cases kind <;> simp only [unitAct, Option.some.injEq, Prod.mk.injEq] at h <;>
      obtain ⟨rfl, rfl⟩ := h <;> simp
  | invoking result =>
    cases result <;> simp only [unitAct, Option.some.injEq, Prod.mk.injEq] at h <;>
      obtain ⟨rfl, rfl⟩ := h <;> simp
  | doneRead v ms =>
    cases ms <;> simp only [unitAct, Option.some.injEq, Prod.mk.injEq] at h <;>
      obtain ⟨rfl, rfl⟩ := h <;> simp
  | doneWritten ms =>
    simp only [unitAct, Option.some.injEq, Prod.mk.injEq] at h
    obtain ⟨rfl, rfl⟩ := h
    simp
  | durationRead v ms =>
    simp only [unitAct, Option.some.injEq, Prod.mk.injEq] at h
    obtain ⟨rfl, rfl⟩ := h
    simp
  | erroredRead v =>
    simp only [unitAct, Option.some.injEq, Prod.mk.injEq] at h
    obtain ⟨rfl, rfl⟩ := h
    simp
  | exiting =>
    simp only [unitAct] at h
    split at h
    · rename_i hpos
      simp only [Option.some.injEq, Prod.mk.injEq] at h
      obtain ⟨rfl, rfl⟩ := h
      simp [hpos]
    · simp at h
  | released =>
    simp only [unitAct, Option.some.injEq, Prod.mk.injEq] at h
    obtain ⟨rfl, rfl⟩ := h
    simp
  | finished => simp [unitAct] at h

theorem singleSlot_at_start (kinds : List UnitKind) : SingleSlot kinds (Dispatch.init 1 kinds) :=
  .quiet [] rfl rfl (by simp [Dispatch.init]) rfl rfl rfl rfl

theorem coordStep_singleSlot (kinds : List UnitKind) (s s' : Dispatch)
    (h : coordStep s = some s') (hi : SingleSlot kinds s) : SingleSlot kinds s' := by
  unfold coordStep at h
  cases hc : s.coord with
  | idle =>
    rw [hc] at h
    simp only at h
    cases hp : s.pending with
    | nil =>
      rw [hp] at h
      simp only at h
      split at h
      · simp only [Option.some.injEq] at h
        subst h
        cases hi with
        | quiet launched hcap hkinds hold hsem hD hE hM =>
          rw [hc, hp] at hkinds
          rw [hc] at hsem
          exact .quiet launched hcap hkinds hold hsem hD hE hM
        | busy launched olds kind pc hcap hkinds hunits hold hsem hslots hact =>
          rw [hc, hp] at hkinds
          exact .busy launched olds kind pc hcap hkinds hunits hold hsem rfl hact
      · simp at h
    | cons k rest =>
      rw [hp] at h
      simp only [Option.some.injEq] at h
      subst h
      cases hi with
      | quiet launched hcap hkinds hold hsem hD hE hM =>
        rw [hc, hp] at hkinds
        rw [hc] at hsem
        exact .quiet launched hcap hkinds hold hsem hD hE hM
      | busy launched olds kind pc hcap hkinds hunits hold hsem hslots hact =>
        rw [hc, hp] at hkinds
        exact .busy launched olds kind pc hcap hkinds hunits hold hsem rfl hact
  | sending k =>
    rw [hc] at h
    simp only at h
    split at h
    · rename_i hlt
      simp only [Option.some.injEq] at h
      subst h
      cases hi with
      | quiet launched hcap hkinds hold hsem hD hE hM =>
        rw [hc] at hkinds hsem
        refine .quiet launched hcap hkinds hold ?_ hD hE hM
        simp only [CoordPc.slots] at hsem ⊢
        omega
      | busy launched olds kind pc hcap hkinds hunits hold hsem hslots hact =>
        omega
    · simp at h
  | going k =>
    rw [hc] at h
    simp only [Option.some.injEq] at h
    subst h
    cases hi with
    | quiet launched hcap hkinds hold hsem hD hE hM =>
      rw [hc] at hkinds hsem
      exact .busy launched s.units k (.start k) hcap hkinds rfl hold hsem rfl
        (.start k hD hE hM)
    | busy launched olds kind pc hcap hkinds hunits hold hsem hslots hact =>
      rw [hc] at hslots
      simp [CoordPc.slots] at hslots
  | returned =>
    rw [hc] at h
    simp at h

theorem unitStep_singleSlot (kinds : List UnitKind) (s s' : Dispatch) (i : Nat)
    (h : unitStep s i = some s') (hi : SingleSlot kinds s) : SingleSlot kinds s' := by
  unfold unitStep at h
  cases hu : s.units[i]? with
  | none =>
    rw [hu] at h
    simp at h
  | some pc =>
    rw [hu] at h
    simp only at h
    cases ha : unitAct s pc with
    | none =>
      rw [ha] at h
      simp at h
    | some r =>
      obtain ⟨pc', t⟩ := r
      rw [ha] at h
      simp only [Option.some.injEq] at h
      subst h
      obtain ⟨hunits', hcap', hcoord', hpending', hsem', hpos', hsame', hfin'⟩ :=
        unitAct_rest s t pc pc' ha
      cases hi with
      | quiet launched hcap hkinds hold hsem hD hE hM =>
        have hpc := hold pc (List.getElem?_mem hu)
        have hpc' := hfin' hpc
        have hrel : pc = .released := by
          rcases hpc with rfl | rfl
          · rfl
          · simp [unitAct] at ha
        obtain ⟨hD', hE', hM'⟩ := hsame' hrel
        subst hpc'
        simp only [reduceCtorEq, if_false] at hsem'
        refine .quiet launched (by simpa using hcap'.trans hcap) ?_ ?_ ?_ ?_ ?_ ?_
        · simpa only [hcoord', hpending'] using hkinds
        · intro x hx
          simp only [hunits'] at hx
          rcases List.mem_or_eq_of_mem_set hx with hx | rfl
          · exact hold x hx
          · exact Or.inr rfl
        · simpa only [hcoord', hsem'] using hsem
        · simpa only [hD'] using hD
        · simpa only [hE'] using hE
        · simpa only [hM'] using hM
      | busy launched olds kind pc₀ hcap hkinds hunits hold hsem hslots hact =>
        rw [hunits] at hu
        by_cases hlt : i < olds.length
        · rw [List.getElem?_append_left hlt] at hu
          have hpc := hold pc (List.getElem?_mem hu)
          have hpc' := hfin' hpc
          have hrel : pc = .released := by
            rcases hpc with rfl | rfl
            · rfl
            · simp [unitAct] at ha
          obtain ⟨hD', hE', hM'⟩ := hsame' hrel
          subst hpc'
          simp only [reduceCtorEq, if_false] at hsem'
          refine .busy launched (olds.set i .finished) kind pc₀ (by simpa using hcap'.trans hcap)
            ?_ ?_ ?_ ?_ ?_ ?_
          · simpa only [hcoord', hpending'] using hkinds
          · simp only [hunits', hunits]
            exact List.set_append_left i _ hlt
          · intro x hx
            rcases List.mem_or_eq_of_mem_set hx with hx | rfl
            · exact hold x hx
            · exact Or.inr rfl
          · simpa only [hsem'] using hsem
          · simpa only [hcoord'] using hslots
          · simpa only [hD', hE', hM'] using hact
        · have hge : olds.length ≤ i := by omega
          rw [List.getElem?_append_right hge] at hu
          have hi0 : i - olds.length = 0 := by
            rcases Nat.eq_zero_or_pos (i - olds.length) with h0 | h0
            · exact h0
            · obtain ⟨j, hj⟩ : ∃ j, i - olds.length = j + 1 := ⟨i - olds.length - 1, by omega⟩
              rw [hj] at hu
              simp at hu
          rw [hi0] at hu
          simp only [List.getElem?_cons_zero, Option.some.injEq] at hu
          subst hu
          have hset : (olds ++ [pc₀]).set i pc' = olds ++ [pc'] := by
            rw [List.set_append_right i _ hge, hi0]
            rfl
          rcases activeOk_step _ _ _ s t kind pc₀ pc' hact ha with ⟨hr, hD', hE', hM'⟩ | hact'
          · subst hr
            simp only [if_true] at hsem'
            refine .quiet (launched ++ [kind]) (by simpa using hcap'.trans hcap) ?_ ?_ ?_ ?_ ?_ ?_
            · simpa only [hcoord', hpending', List.append_assoc, List.singleton_append]
                using hkinds
            · intro x hx
              simp only [hunits', hunits, hset, List.mem_append, List.mem_singleton] at hx
              rcases hx with hx | rfl
              · exact hold x hx
              · exact Or.inl rfl
            · simp only [hcoord', hsem', hsem, hslots]
            · simpa only [List.foldl_append, List.foldl_cons, List.foldl_nil] using hD'
            · simpa only [List.foldl_append, List.foldl_cons, List.foldl_nil] using hE'
            · simpa only [List.foldl_append, List.foldl_cons, List.foldl_nil] using hM'
          · have hne : pc' ≠ .released := by
              intro hr
              subst hr
              have := activeOk_holdsSlot hact'
              simp [UnitPc.holdsSlot] at this
            simp only [hne, if_false] at hsem'
            refine .busy launched olds kind pc' (by simpa using hcap'.trans hcap) ?_ ?_ hold ?_ ?_
              hact'
            · simpa only [hcoord', hpending'] using hkinds
            · simp only [hunits', hunits, hset]
            · simpa only [hsem'] using hsem
            · simpa only [hcoord'] using hslots

theorem exec_singleSlot (kinds : List UnitKind) (schedule : List Nat) :
    ∀ (s s' : Dispatch), s.exec schedule = some s' → SingleSlot kinds s → SingleSlot kinds s' := by
  induction schedule with
  | nil =>
    intro s s' h hi
    simp only [Dispatch.exec, Option.some.injEq] at h
    subst h
    exact hi
  | cons c rest ih =>
    intro s s' h hi
    simp only [Dispatch.exec] at h
    cases hs : s.step c with
    | none =>
      rw [hs] at h
      simp at h
    | some t =>
      rw [hs] at h
      simp only at h
      have ht : SingleSlot kinds t := by
        cases c with
        | zero => exact coordStep_singleSlot kinds s t hs hi
        | succ i => exact unitStep_singleSlot kinds s t i hs hi
      exact ih t s' h ht

theorem singleSlot_completed (kinds : List UnitKind) (s : Dispatch) (hi : SingleSlot kinds s)
    (hc : s.completed = true) (hp : s.pending = []) :
    s.Done = kinds.foldl UnitKind.doneAfter 0 ∧
      s.Errored = kinds.foldl UnitKind.erroredAfter 0 ∧
      s.DurationMs = kinds.foldl UnitKind.durationAfter 0 := by
  simp only [Dispatch.completed, Bool.and_eq_true, decide_eq_true_eq, List.all_eq_true] at hc
  obtain ⟨hcoord, hall⟩ := hc
  cases hi with
  | quiet launched hcap hkinds hold hsem hD hE hM =>
    rw [hcoord, hp] at hkinds
    simp only [CoordPc.kinds, List.append_nil] at hkinds
    subst hkinds
    exact ⟨hD, hE, hM⟩
  | busy launched olds kind pc hcap hkinds hunits hold hsem hslots hact =>
    have hpc := hall pc (by simp [hunits])
    subst hpc
    have := activeOk_holdsSlot hact
    simp [UnitPc.holdsSlot] at this

theorem exec_drained (schedule : List Nat) :
    ∀ (s s' : Dispatch), s.exec schedule = some s' → (s.coord = .returned → s.pending = []) →
      s'.coord = .returned → s'.pending = [] := by
  induction schedule with
  | nil =>
    intro s s' h hi
    simp only [Dispatch.exec, Option.some.injEq] at h
    subst h
    exact hi
  | cons c rest ih =>
    intro s s' h hi
    simp only [Dispatch.exec] at h
    cases hs : s.step c with
    | none =>
      rw [hs] at h
      simp at h
    | some t =>
      rw [hs] at h
      simp only at h
      refine ih t s' h ?_
      cases c with
      | zero =>
        simp only [Dispatch.step, coordStep] at hs
        cases hc : s.coord with
        | idle =>
          rw [hc] at hs
          simp only at hs
          cases hp : s.pending with
          | nil =>
            rw [hp] at hs
            simp only at hs
            split at hs
            · simp only [Option.some.injEq] at hs
              subst hs
              intro _
              rfl
            · simp at hs
          | cons k more =>
            rw [hp] at hs
            simp only [Option.some.injEq] at hs
            subst hs
            intro hr
            simp at hr
        | sending k =>
          rw [hc] at hs
          simp only at hs
          split at hs
          · simp only [Option.some.injEq] at hs
            subst hs
            intro hr
            simp at hr
          · simp at hs
        | going k =>
          rw [hc] at hs
          simp only [Option.some.injEq] at hs
          subst hs
          intro hr
          simp at hr
        | returned =>
          rw [hc] at hs
          simp at hs
      | succ i =>
        simp only [Dispatch.step, unitStep] at hs
        cases hu : s.units[i]? with
        | none =>
          rw [hu] at hs
          simp at hs
        | some pc =>
          rw [hu] at hs
          simp only at hs
          cases ha : unitAct s pc with
          | none =>
            rw [ha] at hs
            simp at hs
          | some r =>
            obtain ⟨pc', u⟩ := r
            rw [ha] at hs
            simp only [Option.some.injEq] at hs
            subst hs
            obtain ⟨_, _, hcoord, hpending, _⟩ := unitAct_rest s u pc pc' ha
            simpa only [hcoord, hpending] using hi

theorem exec_single_slot_counters (kinds : List UnitKind) (schedule : List Nat) (s : Dispatch)
    (h : (Dispatch.init 1 kinds).exec schedule = some s) (hc : s.completed = true) :
    s.Done = kinds.foldl UnitKind.doneAfter 0 ∧
      s.Errored = kinds.foldl UnitKind.erroredAfter 0 ∧
      s.DurationMs = kinds.foldl UnitKind.durationAfter 0 := by
  have hi := exec_singleSlot kinds schedule _ s h (singleSlot_at_start kinds)
  have hcoord : s.coord = .returned := by
    simp only [Dispatch.completed, Bool.and_eq_true, decide_eq_true_eq] at hc
    exact hc.1
  have hp := exec_drained schedule _ s h (by simp [Dispatch.init]) hcoord
  exact singleSlot_completed kinds s hi hc hp

/-- A gate of capacity one leaves no room for a lost update. For `Parallelism = 1`, a listing
that ends at its first page that is not truncated and no cancellation, every interleaving of
the coordinator and the units that ends with `Run` past `wg.Wait()` and every unit finished
ends with the counters Done, Errored and DurationMs of the summary that `Run` returns. -/
theorem Run_single_slot_summary (rt : Runtime) (fuel : Nat) (ctx : Nat → Bool)
    (setting : Setting) (client : IAwsClient) (pages : List ListObjectsV2Output)
    (schedule : List Nat) (d : Dispatch)
    (hpar : setting.Parallelism = 1)
    (hlist : Listing client setting none pages)
    (hkeys : ∀ o ∈ allObjects pages, o.Key ≠ none)
    (hctx : ∀ k, ctx k = false)
    (hm : ∀ e, ∃ b, rt.marshal e = .ok b)
    (hfuel : pages.length ≤ fuel)
    (hexec : (Dispatch.ofRun rt setting client pages).exec schedule = some d)
    (hdone : d.completed = true) :
    ∃ s, (Run rt fuel ctx setting client).1 = .returned s ∧
      d.Done = s.Done ∧ d.Errored = s.Errored ∧ d.DurationMs = s.DurationMs := by
  have hpar' : 1 ≤ setting.Parallelism := by omega
  obtain ⟨st, hrun, ht⟩ := runLoop_tallied rt ctx setting client RunState.init hpar' hctx hm rfl
    pages fuel none RunState.init [] hlist hkeys hfuel (tallied_at_start rt setting client)
  have hnot : ¬ setting.Parallelism < 0 := by omega
  have hcap : setting.Parallelism.toNat = 1 := by omega
  have h₁ := foldl_doneAfter rt setting client hm (List.enumFrom 0 (allObjects pages)) 0 0
  have h₂ := foldl_erroredAfter rt setting client hm (List.enumFrom 0 (allObjects pages)) 0 0
  have h₃ := foldl_durationAfter rt setting client hm (List.enumFrom 0 (allObjects pages)) 0 0
  have hz : u64add 0 0 = 0 := rfl
  rw [hz] at h₁ h₂ h₃
  have hdone' := ht.done
  have herrored := ht.errored
  have hduration := ht.duration
  simp only [RunState.init, List.nil_append, Nat.zero_add] at hdone' herrored hduration h₁ h₂ h₃
  simp only [Dispatch.ofRun, hcap] at hexec
  obtain ⟨hD, hE, hM⟩ := exec_single_slot_counters _ schedule d hexec hdone
  refine ⟨st.summary, ?_, ?_, ?_, ?_⟩
  · simp only [Run, hnot, if_false, hrun]
  · rw [hdone', hD]
    exact h₁
  · rw [herrored, hE]
    exact h₂
  · rw [hduration, hM]
    exact h₃

/-- The test listing with a gate of capacity one, under the schedule that runs the units one
after the other: the dispatcher ends with the counters of the summary of `Run`. -/
theorem Run_single_slot_summary_witness :
    ∃ s, (Run demoRuntime 2 neverCancelled oneSlotSetting testClient).1 = .returned s ∧
      oneSlotEnd.Done = s.Done ∧ oneSlotEnd.Errored = s.Errored ∧
      oneSlotEnd.DurationMs = s.DurationMs :=
  Run_single_slot_summary demoRuntime 2 neverCancelled oneSlotSetting testClient
    [testPage1, testPage2] inOrderSchedule oneSlotEnd rfl ⟨rfl, rfl, rfl, rfl⟩ (by decide)
    (fun _ => rfl) (fun _ => ⟨_, rfl⟩) (by decide) (by decide) (by decide)

end S3Reinvoke
